import Mathlib

/-!
Verification development for `ortools/linear_solver/model_exporter.h`
(`MPModelProtoExporter`): deterministic name canonicalization with collision
resolution, the fixed/free MPS layout decision, and the LP / MPS
serialization contracts. The repository ships only the header; the method
bodies are modelled from the specification and the header's documented
contracts, as noted on each definition.
-/

namespace ModelExporter

/-- Decimal digits of a natural number, least significant first, computed with
explicit structural fuel so that the definition reduces inside the kernel. -/
def natDigitsAux : Nat → Nat → List Nat
  | 0, _ => []
  | _ + 1, 0 => []
  | fuel + 1, n + 1 => ((n + 1) % 10) :: natDigitsAux fuel ((n + 1) / 10)

/-- Decimal digits of a natural number, least significant first. -/
def natDigits (n : Nat) : List Nat := natDigitsAux n n

/-- Decimal rendering of a natural number, as used for obfuscated names such
as "V12345" and for collision suffixes. -/
def natRepr (n : Nat) : String :=
  if n = 0 then "0" else String.mk (((natDigits n).map Nat.digitChar).reverse)

theorem natDigitsAux_eq_digits :
    ∀ (fuel n : Nat), n ≤ fuel → natDigitsAux fuel n = Nat.digits 10 n := by
  intro fuel
  induction fuel with
  | zero =>
    intro n hn
    have : n = 0 := Nat.le_zero.mp hn
    subst this
    simp [natDigitsAux]
  | succ f ih =>
    intro n hn
    match n with
    | 0 => simp [natDigitsAux]
    | m + 1 =>
      have hdiv : (m + 1) / 10 ≤ f := by omega
      rw [natDigitsAux, ih ((m + 1) / 10) hdiv,
        Nat.digits_def' (b := 10) (by norm_num) (Nat.succ_pos m)]

theorem natDigits_eq_digits (n : Nat) : natDigits n = Nat.digits 10 n :=
  natDigitsAux_eq_digits n n le_rfl

/-- Inverse of `Nat.digitChar` on decimal digits. -/
def digitVal (c : Char) : Nat := c.toNat - 48

theorem digitVal_digitChar : ∀ d, d < 10 → digitVal (Nat.digitChar d) = d := by decide

theorem digitChar_isDigit : ∀ d, d < 10 → (Nat.digitChar d).isDigit = true := by decide

theorem ofDigits_digitVal_natRepr (n : Nat) :
    Nat.ofDigits 10 ((natRepr n).data.reverse.map digitVal) = n := by
  by_cases h : n = 0
  · subst h
    simp [natRepr, digitVal, Nat.ofDigits]
  · have hform : (natRepr n).data = ((natDigits n).map Nat.digitChar).reverse := by
      simp [natRepr, h]
    rw [hform, List.reverse_reverse, List.map_map]
    have hlt : ∀ d ∈ natDigits n, d < 10 := by
      intro d hd
      rw [natDigits_eq_digits] at hd
      exact Nat.digits_lt_base (by norm_num) hd
    have hmap : (natDigits n).map (digitVal ∘ Nat.digitChar) = natDigits n := by
      have : (natDigits n).map (digitVal ∘ Nat.digitChar) = (natDigits n).map id :=
        List.map_congr_left (fun d hd => digitVal_digitChar d (hlt d hd))
      simpa using this
    rw [hmap, natDigits_eq_digits, Nat.ofDigits_digits]

theorem natRepr_injective {a b : Nat} (h : natRepr a = natRepr b) : a = b := by
  have ha := ofDigits_digitVal_natRepr a
  rw [h] at ha
  exact ha.symm.trans (ofDigits_digitVal_natRepr b)

theorem natRepr_length_pos (n : Nat) : 0 < (natRepr n).length := by
  by_cases h : n = 0
  · subst h; decide
  · have hne : Nat.digits 10 n ≠ [] := Nat.digits_ne_nil_iff_ne_zero.mpr h
    have : (natRepr n).length = (Nat.digits 10 n).length := by
      simp [natRepr, h, String.length_mk, natDigits_eq_digits]
    rw [this]
    exact List.length_pos.mpr hne

theorem natRepr_length (n : Nat) (hn : n ≠ 0) :
    (natRepr n).length = (Nat.digits 10 n).length := by
  simp [natRepr, hn, String.length_mk, natDigits_eq_digits]

theorem natRepr_chars (n : Nat) : ∀ c ∈ (natRepr n).data, c.isDigit = true := by
  intro c hc
  by_cases h : n = 0
  · subst h
    have : c = '0' := by simpa [natRepr] using hc
    subst this; rfl
  · have hform : (natRepr n).data = ((natDigits n).map Nat.digitChar).reverse := by
      simp [natRepr, h]
    rw [hform, List.mem_reverse, List.mem_map] at hc
    obtain ⟨d, hd, rfl⟩ := hc
    rw [natDigits_eq_digits] at hd
    exact digitChar_isDigit d (Nat.digits_lt_base (by norm_num) hd)

theorem natRepr_length_le_seven_iff (n : Nat) (hn : n ≠ 0) :
    (natRepr n).length ≤ 7 ↔ n ≤ 9999999 := by
  rw [natRepr_length n hn]
  constructor
  · intro h
    have h1 := Nat.lt_base_pow_length_digits (b := 10) (m := n) (by norm_num)
    have h2 : (10 : Nat) ^ (Nat.digits 10 n).length ≤ 10 ^ 7 :=
      Nat.pow_le_pow_right (by norm_num) h
    have := lt_of_lt_of_le h1 h2
    omega
  · intro h
    have h2 := Nat.le_digits_len_le 10 n 9999999 h
    have h3 : (Nat.digits 10 9999999).length = 7 := by
      rw [Nat.digits_len 10 9999999 (by norm_num) (by norm_num),
        Nat.log_eq_of_pow_le_of_lt_pow (b := 10) (m := 6) (n := 9999999)
          (by norm_num) (by norm_num)]
    omega

theorem string_append_left_cancel {p s t : String} (h : p ++ s = p ++ t) : s = t := by
  apply String.ext
  have hd := congrArg String.data h
  rw [String.data_append, String.data_append] at hd
  exact List.append_cancel_left hd

/-- Characters the exporter keeps unchanged in a display name. Modelled from
the spec: the sanitization charset left open by the absent
`model_exporter.cc` is fixed, following spec §9, to letters, decimal digits
and the underscore. -/
def isLegalChar (c : Char) : Bool := c.isAlpha || c.isDigit || c == '_'

/-- Characters legal as the first character of a display name (letter or
underscore, following spec §4.1). -/
def isLegalFirstChar (c : Char) : Bool := c.isAlpha || c == '_'

/-- Legality of a character list as a display name: non-empty, first
character legal in first position, every character legal. -/
def legalChars : List Char → Bool
  | [] => false
  | c :: rest => isLegalFirstChar c && rest.all isLegalChar

/-- Legality of a whole display name: non-empty, first character legal as a
first character, every character legal. -/
def legalNameB (s : String) : Bool := legalChars s.data

theorem isLegalChar_of_first {c : Char} (h : isLegalFirstChar c = true) :
    isLegalChar c = true := by
  simp only [isLegalFirstChar, Bool.or_eq_true] at h
  simp only [isLegalChar, Bool.or_eq_true]
  rcases h with h | h
  · exact Or.inl (Or.inl h)
  · exact Or.inr h

theorem isLegalChar_of_digit {c : Char} (h : c.isDigit = true) :
    isLegalChar c = true := by
  simp [isLegalChar, h]

/-- Display name that obfuscation assigns to the entity at 0-based index i:
the prefix followed by the 1-based index, e.g. "V12345" (header lines
45-47). -/
def obfuscatedName (pfx : String) (i : Nat) : String := pfx ++ natRepr (i + 1)

/-- Sanitizes one character: keep it when legal, else replace it by an
underscore. -/
def sanitizeChar (c : Char) : Char := if isLegalChar c then c else '_'

/-- Sanitizes a raw name. Modelled from the spec: the body of
`ExtractAndProcessNames` is absent, and spec §4.1 together with header lines
99-104 prescribe prepending an underscore when the first character is not
legal in first position, with illegal characters replaced by underscores. -/
def sanitizeName (s : String) : String :=
  match s.data with
  | [] => ""
  | c :: _ =>
    if isLegalFirstChar c then String.mk (s.data.map sanitizeChar)
    else String.mk ('_' :: s.data.map sanitizeChar)

/-- Collision-suffix candidate: the base name with "_k" appended (header
lines 103-104). -/
def appendSuffix (base : String) (k : Nat) : String := base ++ "_" ++ natRepr k

/-- Probes candidate suffixes k, k+1, … in order and returns the first
candidate avoiding the already-assigned names; the fuel bounds the search.
Modelled from the spec: §4.1 prescribes probing k = 1, 2, 3, … in order. -/
def probeSuffix (assigned : List String) (base : String) : Nat → Nat → String
  | 0, k => appendSuffix base k
  | fuel + 1, k =>
    if appendSuffix base k ∈ assigned then probeSuffix assigned base fuel (k + 1)
    else appendSuffix base k

/-- Resolves a display name against the names already assigned in the same
table: keep it when fresh, else append "_k" for the smallest k ≥ 1 avoiding
a collision (spec §4.1). -/
def uniquify (assigned : List String) (base : String) : String :=
  if base ∈ assigned then probeSuffix assigned base (assigned.length + 1) 1 else base

theorem obfuscatedName_injective (pfx : String) {i j : Nat}
    (h : obfuscatedName pfx i = obfuscatedName pfx j) : i = j := by
  have h2 := natRepr_injective (string_append_left_cancel h)
  omega

theorem appendSuffix_injective (base : String) {j k : Nat}
    (h : appendSuffix base j = appendSuffix base k) : j = k := by
  unfold appendSuffix at h
  exact natRepr_injective (string_append_left_cancel h)

theorem appendSuffix_length (base : String) (k : Nat) :
    (appendSuffix base k).length = base.length + 1 + (natRepr k).length := by
  have h1 : ("_" : String).length = 1 := rfl
  simp [appendSuffix, String.length_append, h1]

theorem appendSuffix_ne_base (base : String) (k : Nat) : appendSuffix base k ≠ base := by
  intro h
  have h2 := congrArg String.length h
  rw [appendSuffix_length] at h2
  have h3 := natRepr_length_pos k
  omega

theorem legalChars_append {l t : List Char} (hl : legalChars l = true)
    (ht : ∀ c ∈ t, isLegalChar c = true) : legalChars (l ++ t) = true := by
  match l with
  | [] => simp [legalChars] at hl
  | c :: rest =>
    simp only [List.cons_append, legalChars, Bool.and_eq_true, List.all_eq_true] at hl ⊢
    refine ⟨hl.1, ?_⟩
    intro x hx
    rcases List.mem_append.mp hx with h | h
    · exact hl.2 x h
    · exact ht x h

theorem legalNameB_appendSuffix {base : String} (hb : legalNameB base = true) (k : Nat) :
    legalNameB (appendSuffix base k) = true := by
  unfold legalNameB at hb ⊢
  unfold appendSuffix
  rw [String.data_append, String.data_append, List.append_assoc]
  apply legalChars_append hb
  intro c hc
  rcases List.mem_append.mp hc with h | h
  · have h2 : ("_" : String).data = ['_'] := rfl
    rw [h2] at h
    have : c = '_' := by simpa using h
    subst this; decide
  · exact isLegalChar_of_digit (natRepr_chars k c h)

theorem legalNameB_obfuscatedName {pfx : String} (hp : legalNameB pfx = true) (i : Nat) :
    legalNameB (obfuscatedName pfx i) = true := by
  unfold legalNameB at hp ⊢
  unfold obfuscatedName
  rw [String.data_append]
  exact legalChars_append hp (fun c hc => isLegalChar_of_digit (natRepr_chars _ c hc))

theorem sanitizeChar_legal (c : Char) : isLegalChar (sanitizeChar c) = true := by
  unfold sanitizeChar
  by_cases h : isLegalChar c = true
  · rw [if_pos h]; exact h
  · rw [if_neg h]; decide

theorem sanitizeName_legal {s : String} (hs : s.data ≠ []) :
    legalNameB (sanitizeName s) = true := by
  unfold sanitizeName legalNameB
  match hcase : s.data with
  | [] => exact absurd hcase hs
  | c :: rest =>
    show legalChars (if isLegalFirstChar c = true then
        String.mk ((c :: rest).map sanitizeChar)
      else String.mk ('_' :: (c :: rest).map sanitizeChar)).data = true
    by_cases hf : isLegalFirstChar c = true
    · rw [if_pos hf]
      show legalChars ((c :: rest).map sanitizeChar) = true
      have hc : sanitizeChar c = c := by
        unfold sanitizeChar
        rw [if_pos (isLegalChar_of_first hf)]
      simp only [List.map_cons, legalChars, hc, hf, Bool.true_and, List.all_eq_true]
      intro x hx
      rw [List.mem_map] at hx
      obtain ⟨y, _, rfl⟩ := hx
      exact sanitizeChar_legal y
    · rw [if_neg hf]
      show legalChars ('_' :: (c :: rest).map sanitizeChar) = true
      simp only [legalChars, Bool.and_eq_true, List.all_eq_true]
      refine ⟨by decide, ?_⟩
      intro x hx
      rw [List.mem_map] at hx
      obtain ⟨y, _, rfl⟩ := hx
      exact sanitizeChar_legal y

theorem probeSuffix_not_mem (assigned : List String) (base : String) :
    ∀ (fuel k : Nat),
      (List.range fuel).countP
          (fun t => decide (appendSuffix base (k + t) ∈ assigned)) < fuel →
      probeSuffix assigned base fuel k ∉ assigned := by
  intro fuel
  induction fuel with
  | zero =>
    intro k h
    exact absurd h (by omega)
  | succ f ih =>
    intro k h
    rw [probeSuffix]
    by_cases hmem : appendSuffix base k ∈ assigned
    · rw [if_pos hmem]
      apply ih (k + 1)
      have hstep : (List.range (f + 1)).countP
            (fun t => decide (appendSuffix base (k + t) ∈ assigned)) =
          (List.range f).countP
            (fun t => decide (appendSuffix base (k + 1 + t) ∈ assigned)) + 1 := by
        rw [List.range_succ_eq_map, List.countP_cons, List.countP_map]
        have hcongr : (List.range f).countP
              ((fun t => decide (appendSuffix base (k + t) ∈ assigned)) ∘ Nat.succ) =
            (List.range f).countP
              (fun t => decide (appendSuffix base (k + 1 + t) ∈ assigned)) := by
          apply List.countP_congr
          intro t _
          have harg : k + Nat.succ t = k + 1 + t := by omega
          simp only [Function.comp]
          rw [harg]
        rw [hcongr]
        simp [hmem]
      omega
    · rw [if_neg hmem]
      exact hmem

theorem countP_range_le_assigned (assigned : List String) (base : String) (n : Nat) :
    (List.range n).countP
        (fun t => decide (appendSuffix base (1 + t) ∈ assigned)) ≤ assigned.length := by
  rw [List.countP_eq_length_filter]
  have hFnodup : ((List.range n).filter
      (fun t => decide (appendSuffix base (1 + t) ∈ assigned))).Nodup :=
    (List.nodup_range n).filter _
  have hinj : Function.Injective (fun t => appendSuffix base (1 + t)) := by
    intro a b hab
    have := appendSuffix_injective base hab
    omega
  have hmapnodup : (((List.range n).filter
      (fun t => decide (appendSuffix base (1 + t) ∈ assigned))).map
        (fun t => appendSuffix base (1 + t))).Nodup := hFnodup.map hinj
  have hsubset : ∀ x ∈ ((List.range n).filter
      (fun t => decide (appendSuffix base (1 + t) ∈ assigned))).map
        (fun t => appendSuffix base (1 + t)), x ∈ assigned := by
    intro x hx
    rw [List.mem_map] at hx
    obtain ⟨t, ht, rfl⟩ := hx
    exact of_decide_eq_true (List.mem_filter.mp ht).2
  have hcard1 : (((List.range n).filter
      (fun t => decide (appendSuffix base (1 + t) ∈ assigned))).map
        (fun t => appendSuffix base (1 + t))).toFinset.card =
      ((List.range n).filter
        (fun t => decide (appendSuffix base (1 + t) ∈ assigned))).length := by
    rw [List.toFinset_card_of_nodup hmapnodup, List.length_map]
  have hsub : (((List.range n).filter
      (fun t => decide (appendSuffix base (1 + t) ∈ assigned))).map
        (fun t => appendSuffix base (1 + t))).toFinset ⊆ assigned.toFinset := by
    intro x hx
    rw [List.mem_toFinset] at hx ⊢
    exact hsubset x hx
  have hle := Finset.card_le_card hsub
  have h2 := List.toFinset_card_le assigned
  omega

theorem uniquify_not_mem (assigned : List String) (base : String) :
    uniquify assigned base ∉ assigned := by
  unfold uniquify
  by_cases h : base ∈ assigned
  · rw [if_pos h]
    apply probeSuffix_not_mem
    have := countP_range_le_assigned assigned base (assigned.length + 1)
    omega
  · rw [if_neg h]
    exact h

theorem probeSuffix_shape (assigned : List String) (base : String) :
    ∀ (fuel k : Nat), ∃ j, k ≤ j ∧
      probeSuffix assigned base fuel k = appendSuffix base j ∧
      ∀ t, k ≤ t → t < j → appendSuffix base t ∈ assigned := by
  intro fuel
  induction fuel with
  | zero =>
    intro k
    exact ⟨k, le_rfl, rfl,
      fun t h1 h2 => absurd (Nat.lt_of_le_of_lt h1 h2) (Nat.lt_irrefl k)⟩
  | succ f ih =>
    intro k
    rw [probeSuffix]
    by_cases hmem : appendSuffix base k ∈ assigned
    · rw [if_pos hmem]
      obtain ⟨j, hj1, hj2, hj3⟩ := ih (k + 1)
      refine ⟨j, by omega, hj2, ?_⟩
      intro t ht1 ht2
      by_cases ht : t = k
      · subst ht; exact hmem
      · exact hj3 t (by omega) ht2
    · rw [if_neg hmem]
      exact ⟨k, le_rfl, rfl,
        fun t h1 h2 => absurd (Nat.lt_of_le_of_lt h1 h2) (Nat.lt_irrefl k)⟩

theorem uniquify_spec (assigned : List String) (base : String) :
    uniquify assigned base ∉ assigned ∧
    (uniquify assigned base = base ∨
      (base ∈ assigned ∧ ∃ k, 1 ≤ k ∧ uniquify assigned base = appendSuffix base k ∧
        ∀ j, 1 ≤ j → j < k → appendSuffix base j ∈ assigned)) := by
  refine ⟨uniquify_not_mem assigned base, ?_⟩
  unfold uniquify
  by_cases h : base ∈ assigned
  · rw [if_pos h]
    obtain ⟨j, hj1, hj2, hj3⟩ := probeSuffix_shape assigned base (assigned.length + 1) 1
    exact Or.inr ⟨h, j, hj1, hj2, hj3⟩
  · rw [if_neg h]
    exact Or.inl rfl

theorem uniquify_legal {assigned : List String} {base : String}
    (hb : legalNameB base = true) : legalNameB (uniquify assigned base) = true := by
  rcases (uniquify_spec assigned base).2 with h | ⟨_, k, _, h2, _⟩
  · rw [h]; exact hb
  · rw [h2]; exact legalNameB_appendSuffix hb k

/-- Base display name of entity i before collision resolution: missing,
empty or over-long raw names fall back to the obfuscated name (header lines
99-107), other raw names are sanitized. -/
def nameBase (pfx : String) (maxLen : Nat) (i : Nat) (raw : Option String) : String :=
  match raw with
  | none => obfuscatedName pfx i
  | some s =>
    if s.length = 0 then obfuscatedName pfx i
    else if maxLen < s.length then obfuscatedName pfx i
    else sanitizeName s

/-- Worker of `ExtractAndProcessNames`: walks the raw names carrying the
0-based proto index and the names already assigned in this table. -/
def ExtractAndProcessNamesFrom (pfx : String) (obfuscate : Bool) (maxLen : Nat) :
    List (Option String) → Nat → List String → List String
  | [], _, _ => []
  | raw :: rest, i, assigned =>
    let name :=
      if obfuscate then obfuscatedName pfx i
      else uniquify assigned (nameBase pfx maxLen i raw)
    name :: ExtractAndProcessNamesFrom pfx obfuscate maxLen rest (i + 1) (name :: assigned)

/-- Processes all raw name fields of a proto list into display names
(`ExtractAndProcessNames` of the source, header lines 94-112). Modelled from
the spec: obfuscation yields prefix + 1-based index with no further
processing (§4.1); otherwise missing, empty or over-long raw names fall back
to the obfuscated name, other names are sanitized, and collisions with
earlier assigned names of the same table receive a "_k" suffix. -/
def ExtractAndProcessNames (rawNames : List (Option String)) (pfx : String)
    (obfuscate : Bool) (maxLen : Nat) : List String :=
  ExtractAndProcessNamesFrom pfx obfuscate maxLen rawNames 0 []

theorem ExtractAndProcessNamesFrom_length (pfx : String) (obfuscate : Bool)
    (maxLen : Nat) :
    ∀ (raws : List (Option String)) (i : Nat) (assigned : List String),
      (ExtractAndProcessNamesFrom pfx obfuscate maxLen raws i assigned).length =
        raws.length := by
  intro raws
  induction raws with
  | nil => intro i assigned; rfl
  | cons raw rest ih =>
    intro i assigned
    simp [ExtractAndProcessNamesFrom, ih]

theorem ExtractAndProcessNames_length (rawNames : List (Option String)) (pfx : String)
    (obfuscate : Bool) (maxLen : Nat) :
    (ExtractAndProcessNames rawNames pfx obfuscate maxLen).length = rawNames.length :=
  ExtractAndProcessNamesFrom_length pfx obfuscate maxLen rawNames 0 []

theorem ExtractAndProcessNamesFrom_obfuscated (pfx : String) (maxLen : Nat) :
    ∀ (raws : List (Option String)) (i : Nat) (assigned : List String),
      ExtractAndProcessNamesFrom pfx true maxLen raws i assigned =
        (List.range raws.length).map (fun t => obfuscatedName pfx (i + t)) := by
  intro raws
  induction raws with
  | nil => intro i assigned; rfl
  | cons raw rest ih =>
    intro i assigned
    rw [ExtractAndProcessNamesFrom]
    simp only [if_pos rfl]
    rw [ih (i + 1), List.length_cons, List.range_succ_eq_map, List.map_cons,
      List.map_map]
    refine List.cons_eq_cons.mpr ⟨by simp, ?_⟩
    apply List.map_congr_left
    intro t _
    simp only [Function.comp_apply]
    congr 1
    omega

theorem ExtractAndProcessNames_obfuscated (rawNames : List (Option String))
    (pfx : String) (maxLen : Nat) :
    ExtractAndProcessNames rawNames pfx true maxLen =
      (List.range rawNames.length).map (fun t => obfuscatedName pfx t) := by
  rw [ExtractAndProcessNames, ExtractAndProcessNamesFrom_obfuscated]
  apply List.map_congr_left
  intro t _
  rw [Nat.zero_add]

theorem ExtractAndProcessNamesFrom_nodup (pfx : String) (maxLen : Nat) :
    ∀ (raws : List (Option String)) (i : Nat) (assigned : List String),
      (ExtractAndProcessNamesFrom pfx false maxLen raws i assigned).Nodup ∧
      ∀ x ∈ ExtractAndProcessNamesFrom pfx false maxLen raws i assigned,
        x ∉ assigned := by
  intro raws
  induction raws with
  | nil =>
    intro i assigned
    exact ⟨List.nodup_nil, fun x hx => absurd hx (List.not_mem_nil x)⟩
  | cons raw rest ih =>
    intro i assigned
    rw [ExtractAndProcessNamesFrom]
    simp only [if_neg (Bool.false_ne_true)]
    obtain ⟨ihn, ihm⟩ := ih (i + 1)
      (uniquify assigned (nameBase pfx maxLen i raw) :: assigned)
    constructor
    · rw [List.nodup_cons]
      refine ⟨?_, ihn⟩
      intro hmem
      exact (ihm _ hmem) (List.mem_cons_self _ _)
    · intro x hx
      rcases List.mem_cons.mp hx with h | h
      · subst h
        exact uniquify_not_mem assigned _
      · intro hxa
        exact (ihm x h) (List.mem_cons_of_mem _ hxa)

theorem ExtractAndProcessNames_nodup (rawNames : List (Option String)) (pfx : String)
    (obfuscate : Bool) (maxLen : Nat) :
    (ExtractAndProcessNames rawNames pfx obfuscate maxLen).Nodup := by
  match obfuscate with
  | false => exact (ExtractAndProcessNamesFrom_nodup pfx maxLen rawNames 0 []).1
  | true =>
    rw [ExtractAndProcessNames_obfuscated]
    apply List.Nodup.map _ (List.nodup_range _)
    intro a b hab
    exact obfuscatedName_injective pfx hab

theorem nameBase_legal {pfx : String} (hp : legalNameB pfx = true) (maxLen i : Nat)
    (raw : Option String) : legalNameB (nameBase pfx maxLen i raw) = true := by
  match raw with
  | none => exact legalNameB_obfuscatedName hp i
  | some s =>
    show legalNameB (if s.length = 0 then obfuscatedName pfx i
      else if maxLen < s.length then obfuscatedName pfx i else sanitizeName s) = true
    by_cases h0 : s.length = 0
    · rw [if_pos h0]; exact legalNameB_obfuscatedName hp i
    · rw [if_neg h0]
      by_cases h1 : maxLen < s.length
      · rw [if_pos h1]; exact legalNameB_obfuscatedName hp i
      · rw [if_neg h1]
        apply sanitizeName_legal
        intro hd
        exact h0 (by simp [String.length, hd])

theorem ExtractAndProcessNamesFrom_legal {pfx : String} (hp : legalNameB pfx = true)
    (obfuscate : Bool) (maxLen : Nat) :
    ∀ (raws : List (Option String)) (i : Nat) (assigned : List String),
      ∀ x ∈ ExtractAndProcessNamesFrom pfx obfuscate maxLen raws i assigned,
        legalNameB x = true := by
  intro raws
  induction raws with
  | nil =>
    intro i assigned x hx
    exact absurd hx (List.not_mem_nil x)
  | cons raw rest ih =>
    intro i assigned x hx
    rw [ExtractAndProcessNamesFrom] at hx
    rcases List.mem_cons.mp hx with h | h
    · subst h
      match obfuscate with
      | true => exact legalNameB_obfuscatedName hp i
      | false =>
        simp only [if_neg (Bool.false_ne_true)]
        exact uniquify_legal (nameBase_legal hp maxLen i raw)
    · exact ih (i + 1) _ x h

theorem ExtractAndProcessNames_legal {pfx : String} (hp : legalNameB pfx = true)
    (rawNames : List (Option String)) (obfuscate : Bool) (maxLen : Nat) :
    ∀ x ∈ ExtractAndProcessNames rawNames pfx obfuscate maxLen,
      legalNameB x = true :=
  ExtractAndProcessNamesFrom_legal hp obfuscate maxLen rawNames 0 []

theorem ExtractAndProcessNamesFrom_set_none (pfx : String) (maxLen : Nat) :
    ∀ (raws : List (Option String)) (i : Nat) (s : String) (i0 : Nat)
      (assigned : List String),
      raws[i]? = some (some s) → maxLen < s.length →
      ExtractAndProcessNamesFrom pfx false maxLen raws i0 assigned =
        ExtractAndProcessNamesFrom pfx false maxLen (raws.set i none) i0 assigned := by
  intro raws
  induction raws with
  | nil =>
    intro i s i0 assigned hget
    exact absurd hget (by simp)
  | cons raw rest ih =>
    intro i s i0 assigned hget hlen
    match i with
    | 0 =>
      rw [List.getElem?_cons_zero] at hget
      have hraw : raw = some s := Option.some_injective _ hget
      subst hraw
      show ExtractAndProcessNamesFrom pfx false maxLen (some s :: rest) i0 assigned =
        ExtractAndProcessNamesFrom pfx false maxLen (none :: rest) i0 assigned
      rw [ExtractAndProcessNamesFrom, ExtractAndProcessNamesFrom]
      have hbase : nameBase pfx maxLen i0 (some s) = nameBase pfx maxLen i0 none := by
        show (if s.length = 0 then obfuscatedName pfx i0
          else if maxLen < s.length then obfuscatedName pfx i0
          else sanitizeName s) = obfuscatedName pfx i0
        rw [if_neg (by omega), if_pos hlen]
      rw [hbase]
    | j + 1 =>
      rw [List.getElem?_cons_succ] at hget
      show ExtractAndProcessNamesFrom pfx false maxLen (raw :: rest) i0 assigned =
        ExtractAndProcessNamesFrom pfx false maxLen (raw :: rest.set j none) i0 assigned
      rw [ExtractAndProcessNamesFrom, ExtractAndProcessNamesFrom]
      rw [ih j s (i0 + 1) _ hget hlen]

theorem ExtractAndProcessNamesFrom_entry (pfx : String) (maxLen : Nat) :
    ∀ (raws : List (Option String)) (i : Nat) (r : Option String) (i0 : Nat)
      (assigned : List String),
      raws[i]? = some r →
      ∃ asg, (ExtractAndProcessNamesFrom pfx false maxLen raws i0 assigned)[i]? =
        some (uniquify asg (nameBase pfx maxLen (i0 + i) r)) := by
  intro raws
  induction raws with
  | nil =>
    intro i r i0 assigned hget
    exact absurd hget (by simp)
  | cons raw rest ih =>
    intro i r i0 assigned hget
    rw [ExtractAndProcessNamesFrom]
    simp only [if_neg (Bool.false_ne_true)]
    match i with
    | 0 =>
      rw [List.getElem?_cons_zero] at hget
      have hraw : raw = r := Option.some_injective _ hget
      subst hraw
      refine ⟨assigned, ?_⟩
      rw [List.getElem?_cons_zero, Nat.add_zero]
    | j + 1 =>
      rw [List.getElem?_cons_succ] at hget
      rw [List.getElem?_cons_succ]
      obtain ⟨asg, hasg⟩ := ih j r (i0 + 1) _ hget
      refine ⟨asg, ?_⟩
      rw [hasg]
      have harg : i0 + 1 + j = i0 + (j + 1) := by omega
      rw [harg]

/-- Finite or infinite bound of a variable or a constraint. Numeric values
are embedded as integers: the serialization logic under verification never
depends on non-integral coefficient values. -/
inductive BoundVal where
  | negInf
  | fin (v : Int)
  | posInf
deriving DecidableEq

/-- Variable of `MPModelProto`: bounds, objective coefficient, integrality
flag and optional raw name (spec §3, §6). -/
structure MPVariableProto where
  lowerBound : BoundVal
  upperBound : BoundVal
  objectiveCoefficient : Int
  isInteger : Bool
  name : Option String
deriving DecidableEq

/-- Constraint of `MPModelProto`: bounds, optional raw name and a sparse
list of (variable index, coefficient) pairs (spec §3, §6). -/
structure MPConstraintProto where
  lowerBound : BoundVal
  upperBound : BoundVal
  name : Option String
  coefficients : List (Nat × Int)
deriving DecidableEq

/-- The model handed to `MPModelProtoExporter` (header line 34). -/
structure MPModelProto where
  name : String
  maximize : Bool
  objectiveOffset : Int
  vars : List MPVariableProto
  constraints : List MPConstraintProto
deriving DecidableEq

/-- Error taxonomy of an export (spec §7). -/
inductive ExportError where
  | invalidReference
  | unsupportedObjective
  | nameTooLong
  | namingCollisionUnresolvable
deriving DecidableEq

/-- Maximum allowed display-name length before the obfuscated fallback kicks
in (header lines 106-107). Modelled from the spec: the concrete cap is not
fixed by the header; no verified property depends on its value. -/
def kMaxNameLength : Nat := 255

/-- Name tables an export builds: variable names with prefix "V", constraint
names with prefix "C" (header lines 45-47). -/
def buildNameTables (m : MPModelProto) (obfuscate : Bool) :
    List String × List String :=
  (ExtractAndProcessNames (m.vars.map (fun v => v.name)) "V" obfuscate
      kMaxNameLength,
    ExtractAndProcessNames (m.constraints.map (fun c => c.name)) "C" obfuscate
      kMaxNameLength)

/-- Decision for the fixed MPS layout (`CanUseFixedMpsFormat`, header lines
118-122): usable exactly when no display name exceeds 8 characters. -/
def CanUseFixedMpsFormat (varNames consNames : List String) : Bool :=
  (varNames ++ consNames).all (fun s => decide (s.length ≤ 8))

/-- Every constraint coefficient must reference a variable index inside the
model's range (spec §3 invariant; checked by `WriteLpTerm`, header lines
133-136). -/
def validIndices (m : MPModelProto) : Bool :=
  m.constraints.all
    (fun c => c.coefficients.all (fun q => decide (q.1 < m.vars.length)))

/-- Relational operator of an LP constraint line. -/
inductive LpRel where
  | leRel
  | geRel
  | eqRel
deriving DecidableEq

/-- Structured line of the LP output text. -/
inductive LpLine where
  | sense (maximize : Bool)
  | objective (terms : List (String × Int)) (offset : Int)
  | sectionHeader (title : String)
  | constraintLine (label : String) (terms : List (String × Int)) (rel : LpRel)
      (rhs : Int)
  | boundLine (varName : String) (lowerBound upperBound : BoundVal)
  | categoryLine (varName : String)
  | endLine
deriving DecidableEq

/-- Writes one LP term (`WriteLpTerm`, header lines 133-136): fails when the
variable index is out of range, omits terms with coefficient exactly 0. -/
def WriteLpTerm (varNames : List String) (varIndex : Nat) (coefficient : Int) :
    Except ExportError (List (String × Int)) :=
  match varNames[varIndex]? with
  | none => .error .invalidReference
  | some nm => .ok (if coefficient = 0 then [] else [(nm, coefficient)])

/-- Renders the term list of one constraint row, aborting on the first
invalid variable reference. -/
def constraintTermsE (varNames : List String) :
    List (Nat × Int) → Except ExportError (List (String × Int))
  | [] => .ok []
  | q :: rest =>
    match WriteLpTerm varNames q.1 q.2 with
    | .error e => .error e
    | .ok t =>
      match constraintTermsE varNames rest with
      | .error e => .error e
      | .ok ts => .ok (t ++ ts)

/-- LP lines of one constraint (spec §4.3): one line for a singly-bounded or
equality row, and two lines (>= lower, <= upper) derived from the same row
for a doubly-bounded range, each with its own deterministic label. -/
def lpConstraintBlock (label : String) (terms : List (String × Int)) :
    BoundVal → BoundVal → List LpLine
  | .fin l, .fin u =>
    if l = u then [.constraintLine label terms .eqRel l]
    else [.constraintLine (label ++ "_1") terms .geRel l,
      .constraintLine (label ++ "_2") terms .leRel u]
  | .fin l, .posInf => [.constraintLine label terms .geRel l]
  | .negInf, .fin u => [.constraintLine label terms .leRel u]
  | _, _ => []

/-- Emits the LP constraint section for the (name, constraint) pairs. -/
def lpConstraintsBlocks (varNames : List String) :
    List (String × MPConstraintProto) → Except ExportError (List LpLine)
  | [] => .ok []
  | p :: rest =>
    match constraintTermsE varNames p.2.coefficients with
    | .error e => .error e
    | .ok ts =>
      match lpConstraintsBlocks varNames rest with
      | .error e => .error e
      | .ok tail =>
        .ok (lpConstraintBlock p.1 ts p.2.lowerBound p.2.upperBound ++ tail)

/-- Objective terms of the LP output: variables with nonzero objective
coefficient, in model order (spec §4.3). -/
def lpObjectiveTerms (m : MPModelProto) (varNames : List String) :
    List (String × Int) :=
  ((varNames.zip m.vars).filter
      (fun p => decide (p.2.objectiveCoefficient ≠ 0))).map
    (fun p => (p.1, p.2.objectiveCoefficient))

/-- A binary variable: integer with bounds exactly [0, 1] (spec §3). -/
def isBinaryVariable (v : MPVariableProto) : Bool :=
  v.isInteger && decide (v.lowerBound = .fin 0) && decide (v.upperBound = .fin 1)

/-- Default LP bounds [0, +infinity) (spec §4.3). -/
def hasDefaultBounds (v : MPVariableProto) : Bool :=
  decide (v.lowerBound = .fin 0) && decide (v.upperBound = .posInf)

/-- LP Bounds section: variables deviating from the default bounds. -/
def lpBoundLines (m : MPModelProto) (varNames : List String) : List LpLine :=
  ((varNames.zip m.vars).filter (fun p => !hasDefaultBounds p.2)).map
    (fun p => .boundLine p.1 p.2.lowerBound p.2.upperBound)

/-- LP General section: integer, non-binary variables. -/
def lpGeneralLines (m : MPModelProto) (varNames : List String) : List LpLine :=
  ((varNames.zip m.vars).filter
      (fun p => p.2.isInteger && !isBinaryVariable p.2)).map
    (fun p => .categoryLine p.1)

/-- LP Binary section: binary variables. -/
def lpBinaryLines (m : MPModelProto) (varNames : List String) : List LpLine :=
  ((varNames.zip m.vars).filter (fun p => isBinaryVariable p.2)).map
    (fun p => .categoryLine p.1)

/-- LP writer (spec §4.3). Modelled from the spec: the body of
`ExportModelAsLpFormat` is absent; the section order and per-section rules
follow §4.3 and §6, with the structured `LpLine` type standing for the
rendered text lines. -/
def writeLp (m : MPModelProto) (varNames consNames : List String) :
    Except ExportError (List LpLine) :=
  match lpConstraintsBlocks varNames (consNames.zip m.constraints) with
  | .error e => .error e
  | .ok ctLines =>
    .ok (LpLine.sense m.maximize ::
      LpLine.objective (lpObjectiveTerms m varNames) m.objectiveOffset ::
      LpLine.sectionHeader "Subject To" ::
      (ctLines ++ (LpLine.sectionHeader "Bounds" :: lpBoundLines m varNames) ++
        (LpLine.sectionHeader "General" :: lpGeneralLines m varNames) ++
        (LpLine.sectionHeader "Binary" :: lpBinaryLines m varNames) ++
        [LpLine.endLine]))

/-- Structured line of the MPS output text. -/
inductive MpsLine where
  | header (title : String)
  | nameLine (modelName : String)
  | rowEntry (rowType : String) (rowName : String)
  | dataLine (headName : String) (pairs : List (String × Int))
  | marker (token : String)
  | rhsEntry (rowName : String) (value : Int)
  | rangeEntry (rowName : String) (width : Int)
  | boundEntry (boundType : String) (varName : String) (value : Option Int)
deriving DecidableEq

/-- MPS output: the chosen layout plus the structured lines. -/
structure MpsOutput where
  fixedFormat : Bool
  lines : List MpsLine
deriving DecidableEq

/-- Name of the MPS objective row. -/
def objRowName : String := "COST"

/-- MPS row type code of a constraint (spec §4.4): E for equalities, G for
lower-bounded rows (ranges included), L for upper-bounded rows, N for free
rows. -/
def rowTypeOf (c : MPConstraintProto) : String :=
  match c.lowerBound, c.upperBound with
  | .fin l, .fin u => if l = u then "E" else "G"
  | .fin _, .posInf => "G"
  | .negInf, .fin _ => "L"
  | _, _ => "N"

/-- Right-hand-side value of a constraint row, when any (spec §4.4). -/
def rhsValueOf (c : MPConstraintProto) : Option Int :=
  match c.lowerBound, c.upperBound with
  | .fin l, .fin _ => some l
  | .fin l, .posInf => some l
  | .negInf, .fin u => some u
  | _, _ => none

/-- RANGES width of a doubly-bounded constraint: upper - lower when both
bounds are finite and distinct (spec §4.4). -/
def rangeWidthOf (c : MPConstraintProto) : Option Int :=
  match c.lowerBound, c.upperBound with
  | .fin l, .fin u => if l = u then none else some (u - l)
  | _, _ => none

/-- MPS ROWS section: one free N row for the objective, then one row per
constraint in model order (spec §4.4). -/
def mpsRowsSection (m : MPModelProto) (consNames : List String) : List MpsLine :=
  MpsLine.rowEntry "N" objRowName ::
    (consNames.zip m.constraints).map (fun p => .rowEntry (rowTypeOf p.2) p.1)

/-- Column-major view of the constraint matrix for variable j: the (row
name, coefficient) pairs of all rows touching j, in row order, zeros never
materialized (spec §4.4 transpose). -/
def columnEntries (consNames : List String) (cts : List MPConstraintProto)
    (j : Nat) : List (String × Int) :=
  ((consNames.zip cts).map
      (fun p => (p.2.coefficients.filter
          (fun q => decide (q.1 = j) && decide (q.2 ≠ 0))).map
        (fun q => (p.1, q.2)))).flatten

/-- Full COLUMNS entries of variable j: the objective coefficient first when
nonzero, then the constraint column. -/
def fullColumn (m : MPModelProto) (consNames : List String) (j : Nat)
    (v : MPVariableProto) : List (String × Int) :=
  (if v.objectiveCoefficient = 0 then []
    else [(objRowName, v.objectiveCoefficient)]) ++
    columnEntries consNames m.constraints j

/-- Mutable state of the MPS line builder: finished lines, pending line head
and pairs, and the running column counter `current_mps_column_` (header
lines 196-197). -/
structure MpsEmitState where
  lines : List MpsLine
  headName : String
  pairs : List (String × Int)
  col : Nat
deriving DecidableEq

/-- Fresh MPS line-builder state. -/
def initMpsEmitState : MpsEmitState := ⟨[], "", [], 0⟩

/-- Appends a new line if two columns are already present on the MPS line
(`AppendNewLineIfTwoColumns`, header lines 161-163). -/
def AppendNewLineIfTwoColumns (st : MpsEmitState) : MpsEmitState :=
  if st.col + 1 = 2 then
    { lines := st.lines ++ [.dataLine st.headName st.pairs], headName := "",
      pairs := [], col := 0 }
  else { st with col := st.col + 1 }

/-- Appends an MPS term in context (`AppendMpsTermWithContext`, header lines
153-159): a fresh line starts with the head name, then the (name, value)
pair is appended and the two-column limit enforced. -/
def AppendMpsTermWithContext (headName name : String) (value : Int)
    (st : MpsEmitState) : MpsEmitState :=
  let st1 := if st.col = 0 then { st with headName := headName } else st
  AppendNewLineIfTwoColumns { st1 with pairs := st1.pairs ++ [(name, value)] }

/-- Flushes a pending partial MPS line. -/
def flushMpsLine (st : MpsEmitState) : MpsEmitState :=
  if st.col = 0 then st
  else
    { lines := st.lines ++ [.dataLine st.headName st.pairs], headName := "",
      pairs := [], col := 0 }

/-- Emits all COLUMNS pairs of one variable and flushes the last line. -/
def emitColumn (varName : String) (entries : List (String × Int))
    (st : MpsEmitState) : MpsEmitState :=
  flushMpsLine
    (entries.foldl (fun s q => AppendMpsTermWithContext varName q.1 q.2 s) st)

/-- Runs the MPS line builder over a list of columns. -/
def emitColumns (cols : List (String × List (String × Int))) : List MpsLine :=
  (cols.foldl (fun st p => emitColumn p.1 p.2 st) initMpsEmitState).lines

/-- MPS COLUMNS section (`AppendMpsColumns`, header lines 168-171):
continuous variables first, then the integer block bracketed by
INTORG/INTEND markers (spec §4.4). -/
def mpsColumnsSection (m : MPModelProto) (varNames consNames : List String) :
    List MpsLine :=
  let cols := (varNames.zip m.vars).enum
  let contCols := (cols.filter (fun p => !p.2.2.isInteger)).map
    (fun p => (p.2.1, fullColumn m consNames p.1 p.2.2))
  let intCols := (cols.filter (fun p => p.2.2.isInteger)).map
    (fun p => (p.2.1, fullColumn m consNames p.1 p.2.2))
  emitColumns contCols ++
    (if intCols.isEmpty then []
      else MpsLine.marker "INTORG" :: emitColumns intCols ++
        [MpsLine.marker "INTEND"])

/-- MPS RHS section: one right-hand-side entry per constraint row carrying
one (spec §4.4). -/
def mpsRhsSection (m : MPModelProto) (consNames : List String) : List MpsLine :=
  (consNames.zip m.constraints).filterMap
    (fun p => (rhsValueOf p.2).map (fun r => MpsLine.rhsEntry p.1 r))

/-- MPS RANGES section: one entry of width upper - lower per doubly-bounded
range constraint (spec §4.4). -/
def mpsRangesSection (m : MPModelProto) (consNames : List String) :
    List MpsLine :=
  (consNames.zip m.constraints).filterMap
    (fun p => (rangeWidthOf p.2).map (fun w => MpsLine.rangeEntry p.1 w))

/-- Bound-type codes and values of one variable's BOUNDS entries (spec §4.4
codes BV, LO, UP, FX, FR, MI). -/
def mpsBoundSpecsFor (v : MPVariableProto) : List (String × Option Int) :=
  if isBinaryVariable v then [("BV", none)]
  else
    match v.lowerBound, v.upperBound with
    | .fin l, .posInf => if l = 0 then [] else [("LO", some l)]
    | .fin l, .fin u =>
      if l = u then [("FX", some l)]
      else (if l = 0 then [] else [("LO", some l)]) ++ [("UP", some u)]
    | .negInf, .posInf => [("FR", none)]
    | .negInf, .fin u => [("MI", none), ("UP", some u)]
    | _, _ => []

/-- MPS BOUNDS entries of one variable (spec §4.4 bound-type codes). -/
def mpsBoundLinesFor (nm : String) (v : MPVariableProto) : List MpsLine :=
  (mpsBoundSpecsFor v).map (fun q => MpsLine.boundEntry q.1 nm q.2)

/-- MPS BOUNDS section: entries for variables deviating from the default
bounds. -/
def mpsBoundsSection (m : MPModelProto) (varNames : List String) :
    List MpsLine :=
  (varNames.zip m.vars).flatMap (fun p => mpsBoundLinesFor p.1 p.2)

/-- MPS writer (spec §4.4). Modelled from the spec: the body of
`ExportModelAsMpsFormat` is absent; references are validated first (the
transpose walks every coefficient), maximization objectives are rejected
(header lines 61-63), and the sections are emitted in the §4.4 order with
the structured `MpsLine` type standing for the rendered text lines. -/
def mpsLines (m : MPModelProto) (varNames consNames : List String) :
    List MpsLine :=
  MpsLine.nameLine m.name :: MpsLine.header "ROWS" ::
    (mpsRowsSection m consNames ++
      (MpsLine.header "COLUMNS" :: mpsColumnsSection m varNames consNames) ++
      (MpsLine.header "RHS" :: mpsRhsSection m consNames) ++
      (if (mpsRangesSection m consNames).isEmpty then []
        else MpsLine.header "RANGES" :: mpsRangesSection m consNames) ++
      (if (mpsBoundsSection m varNames).isEmpty then []
        else MpsLine.header "BOUNDS" :: mpsBoundsSection m varNames) ++
      [MpsLine.header "ENDATA"])

/-- MPS writer entry point: validation, then section emission. -/
def writeMps (m : MPModelProto) (varNames consNames : List String)
    (useFixed : Bool) : Except ExportError MpsOutput :=
  if validIndices m = false then .error .invalidReference
  else if m.maximize then .error .unsupportedObjective
  else .ok { fixedFormat := useFixed, lines := mpsLines m varNames consNames }

/-- `ExportModelAsLpFormat` (header line 55): build the name tables, then
write the LP text. -/
def ExportModelAsLpFormat (m : MPModelProto) (obfuscated : Bool) :
    Except ExportError (List LpLine) :=
  writeLp m (buildNameTables m obfuscated).1 (buildNameTables m obfuscated).2

/-- `ExportModelAsMpsFormat` (header lines 86-87): build the name tables,
use the fixed layout only when requested and usable (header lines 65-68
document the silent fallback to the free layout), then write the MPS text. -/
def ExportModelAsMpsFormat (m : MPModelProto) (fixedFormat obfuscated : Bool) :
    Except ExportError MpsOutput :=
  writeMps m (buildNameTables m obfuscated).1 (buildNameTables m obfuscated).2
    (fixedFormat &&
      CanUseFixedMpsFormat (buildNameTables m obfuscated).1
        (buildNameTables m obfuscated).2)

/-- Layout flag of an MPS export result, when it succeeded. -/
def mpsFixedFormatOf : Except ExportError MpsOutput → Option Bool
  | .ok o => some o.fixedFormat
  | .error _ => none

/-- Decimal rendering of an integer. -/
def intRepr (v : Int) : String :=
  if v < 0 then "-" ++ natRepr v.natAbs else natRepr v.natAbs

/-- Rendering of a bound value. -/
def renderBoundVal : BoundVal → String
  | .negInf => "-inf"
  | .fin v => intRepr v
  | .posInf => "+inf"

/-- Rendering of an LP relational operator. -/
def renderRel : LpRel → String
  | .leRel => "<="
  | .geRel => ">="
  | .eqRel => "="

/-- Rendering of an LP term list. -/
def renderTerms (ts : List (String × Int)) : String :=
  String.intercalate " + " (ts.map (fun p => intRepr p.2 ++ " " ++ p.1))

/-- Rendering of one structured LP line; the objective sense renders as the
keyword Maximize or Minimize (spec §6). -/
def renderLpLine : LpLine → String
  | .sense b => if b then "Maximize" else "Minimize"
  | .objective ts offset => " obj: " ++ renderTerms ts ++ " + " ++ intRepr offset
  | .sectionHeader t => t
  | .constraintLine label ts rel rhs =>
    " " ++ label ++ ": " ++ renderTerms ts ++ " " ++ renderRel rel ++ " " ++
      intRepr rhs
  | .boundLine nm lb ub =>
    " " ++ renderBoundVal lb ++ " <= " ++ nm ++ " <= " ++ renderBoundVal ub
  | .categoryLine nm => " " ++ nm
  | .endLine => "End"

/-- Rendering of the whole LP text. -/
def renderLp (lines : List LpLine) : String :=
  String.intercalate "\n" (lines.map renderLpLine)

/-- Pads a field to the given width (fixed MPS layout). -/
def padField (w : Nat) (s : String) : String :=
  s ++ String.mk (List.replicate (w - s.length) ' ')

/-- Field rendering: positional in the fixed layout, whitespace-delimited in
the free layout (spec §6). -/
def renderField (fixed : Bool) (s : String) : String :=
  if fixed then padField 10 s else s ++ " "

/-- Rendering of one structured MPS line. -/
def renderMpsLine (fixed : Bool) : MpsLine → String
  | .header t => t
  | .nameLine nm => "NAME " ++ nm
  | .rowEntry t nm => " " ++ renderField fixed t ++ nm
  | .dataLine hd ps =>
    " " ++ renderField fixed hd ++
      String.intercalate " "
        (ps.map (fun p => renderField fixed p.1 ++ intRepr p.2))
  | .marker tok => " MARKER " ++ tok
  | .rhsEntry nm v => " RHS " ++ renderField fixed nm ++ intRepr v
  | .rangeEntry nm w => " RANGE " ++ renderField fixed nm ++ intRepr w
  | .boundEntry t nm v =>
    " " ++ renderField fixed t ++ renderField fixed nm ++
      (match v with
        | none => ""
        | some x => intRepr x)

/-- Rendering of the whole MPS text. -/
def renderMps (o : MpsOutput) : String :=
  String.intercalate "\n" (o.lines.map (renderMpsLine o.fixedFormat))

/-- Mutable per-instance state of the exporter facade: cached name tables
with the obfuscation flag they were built for (spec §4.5). -/
structure ExporterState where
  cachedObfuscate : Option Bool
  cachedVarNames : List String
  cachedConsNames : List String
deriving DecidableEq

/-- A fresh exporter instance: nothing cached. -/
def freshExporter : ExporterState := ⟨none, [], []⟩

/-- Returns the name tables, reusing the cache when it was built for the
same obfuscation flag and rebuilding otherwise (spec §4.5). -/
def getNameTables (m : MPModelProto) (obfuscate : Bool) (st : ExporterState) :
    (List String × List String) × ExporterState :=
  if st.cachedObfuscate = some obfuscate then
    ((st.cachedVarNames, st.cachedConsNames), st)
  else
    (((buildNameTables m obfuscate).1, (buildNameTables m obfuscate).2),
      ⟨some obfuscate, (buildNameTables m obfuscate).1,
        (buildNameTables m obfuscate).2⟩)

/-- An export request: LP, or MPS with a fixed-layout preference. -/
inductive ExportRequest where
  | lpFormat (obfuscated : Bool)
  | mpsFormat (fixedFormat obfuscated : Bool)
deriving DecidableEq

/-- One export call on an exporter instance: build or reuse the name tables,
run the requested writer, render the text, return it with the new instance
state (spec §4.5). -/
def exportCall (m : MPModelProto) (req : ExportRequest) (st : ExporterState) :
    Except ExportError String × ExporterState :=
  match req with
  | .lpFormat obf =>
    ((writeLp m (getNameTables m obf st).1.1 (getNameTables m obf st).1.2).map
        renderLp,
      (getNameTables m obf st).2)
  | .mpsFormat ff obf =>
    ((writeMps m (getNameTables m obf st).1.1 (getNameTables m obf st).1.2
          (ff && CanUseFixedMpsFormat (getNameTables m obf st).1.1
            (getNameTables m obf st).1.2)).map renderMps,
      (getNameTables m obf st).2)

theorem WriteLpTerm_err {varNames : List String} {varIndex : Nat}
    (coefficient : Int) (h : varNames.length ≤ varIndex) :
    WriteLpTerm varNames varIndex coefficient = .error .invalidReference := by
  unfold WriteLpTerm
  rw [List.getElem?_eq_none h]

theorem WriteLpTerm_ok {varNames : List String} {varIndex : Nat}
    (hlt : varIndex < varNames.length) (coefficient : Int) :
    ∃ t, WriteLpTerm varNames varIndex coefficient = .ok t := by
  unfold WriteLpTerm
  rw [List.getElem?_eq_getElem hlt]
  exact ⟨_, rfl⟩

theorem constraintTermsE_ok {varNames : List String} :
    ∀ (coeffs : List (Nat × Int)), (∀ q ∈ coeffs, q.1 < varNames.length) →
      ∃ ts, constraintTermsE varNames coeffs = .ok ts := by
  intro coeffs
  induction coeffs with
  | nil => intro h; exact ⟨[], rfl⟩
  | cons q0 rest ih =>
    intro h
    obtain ⟨t, ht⟩ := WriteLpTerm_ok (h q0 (List.mem_cons_self q0 rest)) q0.2
    obtain ⟨ts, hts⟩ := ih (fun q hq => h q (List.mem_cons_of_mem q0 hq))
    exact ⟨t ++ ts, by rw [constraintTermsE, ht, hts]⟩

theorem constraintTermsE_err {varNames : List String} :
    ∀ (coeffs : List (Nat × Int)),
      (∃ q ∈ coeffs, varNames.length ≤ q.1) →
      constraintTermsE varNames coeffs = .error .invalidReference := by
  intro coeffs
  induction coeffs with
  | nil =>
    rintro ⟨q, hq, _⟩
    exact absurd hq (List.not_mem_nil q)
  | cons q0 rest ih =>
    rintro ⟨q, hq, hge⟩
    by_cases h0 : varNames.length ≤ q0.1
    · rw [constraintTermsE, WriteLpTerm_err q0.2 h0]
    · have hlt : q0.1 < varNames.length := by omega
      obtain ⟨t, ht⟩ := WriteLpTerm_ok hlt q0.2
      have hqrest : q ∈ rest := by
        rcases List.mem_cons.mp hq with h | h
        · subst h; exact absurd hge h0
        · exact h
      rw [constraintTermsE, ht, ih ⟨q, hqrest, hge⟩]

theorem lpConstraintsBlocks_ok {varNames : List String} :
    ∀ (l : List (String × MPConstraintProto)),
      (∀ p ∈ l, ∀ q ∈ p.2.coefficients, q.1 < varNames.length) →
      ∃ L, lpConstraintsBlocks varNames l = .ok L := by
  intro l
  induction l with
  | nil => intro h; exact ⟨[], rfl⟩
  | cons p0 rest ih =>
    intro h
    obtain ⟨ts, hts⟩ := constraintTermsE_ok _ (h p0 (List.mem_cons_self p0 rest))
    obtain ⟨L, hL⟩ := ih (fun p hp => h p (List.mem_cons_of_mem p0 hp))
    exact ⟨_, by rw [lpConstraintsBlocks, hts, hL]⟩

theorem lpConstraintsBlocks_err {varNames : List String} :
    ∀ (l : List (String × MPConstraintProto)),
      (∃ p ∈ l, ∃ q ∈ p.2.coefficients, varNames.length ≤ q.1) →
      lpConstraintsBlocks varNames l = .error .invalidReference := by
  intro l
  induction l with
  | nil =>
    rintro ⟨p, hp, _⟩
    exact absurd hp (List.not_mem_nil p)
  | cons p0 rest ih =>
    rintro ⟨p, hp, q, hq, hge⟩
    by_cases h0 : ∃ q0 ∈ p0.2.coefficients, varNames.length ≤ q0.1
    · rw [lpConstraintsBlocks, constraintTermsE_err _ h0]
    · push_neg at h0
      obtain ⟨ts, hts⟩ := constraintTermsE_ok _ (fun q0 hq0 => h0 q0 hq0)
      have hprest : p ∈ rest := by
        rcases List.mem_cons.mp hp with h | h
        · subst h
          exact absurd hge (not_le.mpr (h0 q hq))
        · exact h
      rw [lpConstraintsBlocks, hts, ih ⟨p, hprest, q, hq, hge⟩]

theorem writeLp_ok {m : MPModelProto} {varNames consNames : List String}
    (h : ∀ p ∈ consNames.zip m.constraints, ∀ q ∈ p.2.coefficients,
      q.1 < varNames.length) :
    ∃ rest, writeLp m varNames consNames =
      .ok (LpLine.sense m.maximize :: rest) := by
  obtain ⟨L, hL⟩ := lpConstraintsBlocks_ok _ h
  exact ⟨_, by rw [writeLp, hL]⟩

theorem writeLp_err {m : MPModelProto} {varNames consNames : List String}
    (h : ∃ p ∈ consNames.zip m.constraints, ∃ q ∈ p.2.coefficients,
      varNames.length ≤ q.1) :
    writeLp m varNames consNames = .error .invalidReference := by
  rw [writeLp, lpConstraintsBlocks_err _ h]

theorem buildNameTables_lengths (m : MPModelProto) (obf : Bool) :
    (buildNameTables m obf).1.length = m.vars.length ∧
    (buildNameTables m obf).2.length = m.constraints.length := by
  constructor <;>
    simp [buildNameTables, ExtractAndProcessNames_length]

theorem zip_coeff_bound_of_validIndices {m : MPModelProto}
    (hv : validIndices m = true) {varNames consNames : List String}
    (hvn : varNames.length = m.vars.length) :
    ∀ p ∈ consNames.zip m.constraints, ∀ q ∈ p.2.coefficients,
      q.1 < varNames.length := by
  intro p hp q hq
  have hc : p.2 ∈ m.constraints := (List.of_mem_zip hp).2
  rw [validIndices, List.all_eq_true] at hv
  have h1 := hv p.2 hc
  rw [List.all_eq_true] at h1
  have h2 := of_decide_eq_true (h1 q hq)
  omega

theorem exists_bad_zip_of_not_validIndices {m : MPModelProto}
    (hv : validIndices m = false) {varNames consNames : List String}
    (hvn : varNames.length = m.vars.length)
    (hcn : consNames.length = m.constraints.length) :
    ∃ p ∈ consNames.zip m.constraints, ∃ q ∈ p.2.coefficients,
      varNames.length ≤ q.1 := by
  rw [validIndices, List.all_eq_false] at hv
  obtain ⟨c, hc, hcbad⟩ := hv
  have hall : c.coefficients.all
      (fun q => decide (q.1 < m.vars.length)) = false := by
    cases hall : c.coefficients.all (fun q => decide (q.1 < m.vars.length)) with
    | true => exact absurd hall hcbad
    | false => rfl
  rw [List.all_eq_false] at hall
  obtain ⟨q, hq, hqbad⟩ := hall
  have hqge : m.vars.length ≤ q.1 := by
    by_contra hcon
    exact hqbad (decide_eq_true (by omega))
  obtain ⟨n, hn⟩ := List.mem_iff_getElem?.mp hc
  obtain ⟨hnlt, hnc⟩ := List.getElem?_eq_some_iff.mp hn
  have hzlen : n < (consNames.zip m.constraints).length := by
    rw [List.length_zip, hcn, min_self]
    exact hnlt
  have hp2 : ((consNames.zip m.constraints).get ⟨n, hzlen⟩).2 = c := by
    rw [List.get_eq_getElem, List.getElem_zip]
    exact hnc
  refine ⟨(consNames.zip m.constraints).get ⟨n, hzlen⟩, List.get_mem _ _ hzlen, q, ?_, ?_⟩
  · rw [hp2]; exact hq
  · rw [hvn]; exact hqge

theorem mps_err_invalidReference {m : MPModelProto}
    (hv : validIndices m = false) (varNames consNames : List String)
    (useFixed : Bool) :
    writeMps m varNames consNames useFixed = .error .invalidReference := by
  rw [writeMps, if_pos hv]

theorem validIndices_false_of_bad {m : MPModelProto}
    (h : ∃ c ∈ m.constraints, ∃ q ∈ c.coefficients, m.vars.length ≤ q.1) :
    validIndices m = false := by
  obtain ⟨c, hc, q, hq, hge⟩ := h
  cases hval : validIndices m with
  | false => rfl
  | true =>
    rw [validIndices, List.all_eq_true] at hval
    have h1 := hval c hc
    rw [List.all_eq_true] at h1
    have h2 := of_decide_eq_true (h1 q hq)
    omega

/-- C7: any out-of-range coefficient reference aborts both exports with
InvalidReference, and `WriteLpTerm` reports the failure as the header
documents (lines 133-136). -/
theorem invalid_reference_aborts (m : MPModelProto) (ff obf : Bool)
    (h : ∃ c ∈ m.constraints, ∃ q ∈ c.coefficients, m.vars.length ≤ q.1) :
    ExportModelAsLpFormat m obf = .error .invalidReference ∧
    ExportModelAsMpsFormat m ff obf = .error .invalidReference ∧
    ∀ (varNames : List String) (varIndex : Nat) (coefficient : Int),
      varNames.length ≤ varIndex →
      WriteLpTerm varNames varIndex coefficient = .error .invalidReference := by
  have hvfalse : validIndices m = false := validIndices_false_of_bad h
  refine ⟨?_, ?_, fun vn vi co hle => WriteLpTerm_err co hle⟩
  · rw [ExportModelAsLpFormat]
    exact writeLp_err (exists_bad_zip_of_not_validIndices hvfalse
      (buildNameTables_lengths m obf).1 (buildNameTables_lengths m obf).2)
  · rw [ExportModelAsMpsFormat]
    exact mps_err_invalidReference hvfalse _ _ _

/-- Model with a maximize objective and an out-of-range coefficient
reference (variable index 5, one variable). -/
def badRefMaxModel : MPModelProto :=
  ⟨"m", true, 0,
    [⟨.fin 0, .posInf, 1, false, some "x"⟩],
    [⟨.fin 0, .posInf, some "c", [(5, 1)]⟩]⟩

theorem invalid_reference_aborts_witness :
    ExportModelAsLpFormat badRefMaxModel false = .error .invalidReference ∧
    ExportModelAsMpsFormat badRefMaxModel false false = .error .invalidReference ∧
    ∀ (varNames : List String) (varIndex : Nat) (coefficient : Int),
      varNames.length ≤ varIndex →
      WriteLpTerm varNames varIndex coefficient = .error .invalidReference :=
  invalid_reference_aborts badRefMaxModel false false (by decide)

/-- C1 counterexample: on `badRefMaxModel` (maximize objective, invalid
coefficient reference) the LP export does not succeed, contrary to the
claim that `exportAsLp` succeeds on every maximize Model. -/
theorem maximize_rejection_counterexample :
    ExportModelAsLpFormat badRefMaxModel false = .error .invalidReference := rfl

/-- C1 (amended): on every Model whose coefficient references are all in
range, a maximize objective makes the MPS export fail with
UnsupportedObjective for any (fixed_format, obfuscated) arguments, while the
LP export succeeds and emits the keyword Maximize. -/
theorem maximize_rejection (m : MPModelProto) (ff obf : Bool)
    (hv : validIndices m = true) (hm : m.maximize = true) :
    ExportModelAsMpsFormat m ff obf = .error .unsupportedObjective ∧
    ∃ rest, ExportModelAsLpFormat m obf = .ok (LpLine.sense true :: rest) ∧
      renderLpLine (LpLine.sense true) = "Maximize" := by
  constructor
  · rw [ExportModelAsMpsFormat, writeMps, if_neg (by simp [hv]), if_pos hm]
  · obtain ⟨rest, hrest⟩ := writeLp_ok (zip_coeff_bound_of_validIndices hv
      (buildNameTables_lengths m obf).1)
    rw [hm] at hrest
    exact ⟨rest, hrest, rfl⟩

/-- Maximize model with valid references: one variable, one constraint on
that variable. -/
def maxOkModel : MPModelProto :=
  ⟨"m", true, 0,
    [⟨.fin 0, .posInf, 1, false, some "x"⟩],
    [⟨.fin 0, .posInf, some "c", [(0, 1)]⟩]⟩

theorem maximize_rejection_witness :
    ExportModelAsMpsFormat maxOkModel true false = .error .unsupportedObjective ∧
    ∃ rest, ExportModelAsLpFormat maxOkModel false = .ok (LpLine.sense true :: rest) ∧
      renderLpLine (LpLine.sense true) = "Maximize" :=
  maximize_rejection maxOkModel true false (by decide) (by decide)

/-- C2: when some display name of the built tables exceeds the fixed-format
limit of 8 characters, an MPS export requested with the fixed layout never
produces fixed-layout output: the writer silently falls back to the free
layout (header lines 65-68). -/
theorem fixed_request_long_names_fallback (m : MPModelProto) (obf : Bool)
    (s : String)
    (hs : s ∈ (buildNameTables m obf).1 ++ (buildNameTables m obf).2)
    (hlen : 8 < s.length) :
    mpsFixedFormatOf (ExportModelAsMpsFormat m true obf) ≠ some true := by
  have hcanfalse : CanUseFixedMpsFormat (buildNameTables m obf).1
      (buildNameTables m obf).2 = false := by
    rw [CanUseFixedMpsFormat, List.all_eq_false]
    refine ⟨s, hs, ?_⟩
    simp only [decide_eq_true_eq]
    omega
  rw [ExportModelAsMpsFormat, hcanfalse, Bool.and_false, writeMps]
  by_cases h1 : validIndices m = false
  · rw [if_pos h1]
    simp [mpsFixedFormatOf]
  · rw [if_neg h1]
    by_cases h2 : m.maximize = true
    · rw [if_pos h2]
      simp [mpsFixedFormatOf]
    · rw [if_neg h2]
      simp [mpsFixedFormatOf]

/-- Model with a 20-character variable name. -/
def longNameModel : MPModelProto :=
  ⟨"m", false, 0,
    [⟨.fin 0, .posInf, 1, false, some "xxxxxxxxxxxxxxxxxxxx"⟩],
    []⟩

theorem fixed_request_long_names_fallback_witness :
    mpsFixedFormatOf (ExportModelAsMpsFormat longNameModel true false) ≠ some true :=
  fixed_request_long_names_fallback longNameModel false "xxxxxxxxxxxxxxxxxxxx"
    (by decide) (by decide)

theorem obfuscatedName_length (pfx : String) (i : Nat) :
    (obfuscatedName pfx i).length = pfx.length + (natRepr (i + 1)).length := by
  simp [obfuscatedName, String.length_append]

theorem all_obf_names_short_iff (pfx : String) (hpfx : pfx.length = 1) (n : Nat) :
    (((List.range n).map (fun t => obfuscatedName pfx t)).all
      (fun s => decide (s.length ≤ 8)) = true) ↔ n ≤ 9999999 := by
  rw [List.all_eq_true]
  constructor
  · intro h
    match n with
    | 0 => omega
    | k + 1 =>
      have hmem : obfuscatedName pfx k ∈
          (List.range (k + 1)).map (fun t => obfuscatedName pfx t) := by
        rw [List.mem_map]
        exact ⟨k, List.mem_range.mpr (by omega), rfl⟩
      have h1 := of_decide_eq_true (h _ hmem)
      rw [obfuscatedName_length, hpfx] at h1
      have h7 : (natRepr (k + 1)).length ≤ 7 := by omega
      have h8 := (natRepr_length_le_seven_iff (k + 1) (by omega)).mp h7
      omega
  · intro h x hx
    rw [List.mem_map] at hx
    obtain ⟨t, ht, rfl⟩ := hx
    rw [List.mem_range] at ht
    apply decide_eq_true
    rw [obfuscatedName_length, hpfx]
    have h1 : t + 1 ≤ 9999999 := by omega
    have h2 := (natRepr_length_le_seven_iff (t + 1) (by omega)).mpr h1
    omega

/-- C3: `CanUseFixedMpsFormat` returns true exactly when every display name
of both tables has length at most 8; under obfuscation with the exporter's
1-character prefixes this reduces to the 1-based indices staying at most
9,999,999 (header lines 118-122). The decision is a plain function of the
two name tables. -/
theorem fixed_format_decision :
    (∀ varNames consNames : List String,
      CanUseFixedMpsFormat varNames consNames = true ↔
        ∀ s ∈ varNames ++ consNames, s.length ≤ 8) ∧
    (∀ (rawVars rawCons : List (Option String)) (maxLen : Nat),
      CanUseFixedMpsFormat (ExtractAndProcessNames rawVars "V" true maxLen)
          (ExtractAndProcessNames rawCons "C" true maxLen) = true ↔
        (rawVars.length ≤ 9999999 ∧ rawCons.length ≤ 9999999)) := by
  constructor
  · intro vn cn
    rw [CanUseFixedMpsFormat, List.all_eq_true]
    constructor
    · intro h s hs
      exact of_decide_eq_true (h s hs)
    · intro h s hs
      exact decide_eq_true (h s hs)
  · intro rv rc maxLen
    rw [CanUseFixedMpsFormat, ExtractAndProcessNames_obfuscated,
      ExtractAndProcessNames_obfuscated, List.all_append, Bool.and_eq_true,
      all_obf_names_short_iff "V" rfl, all_obf_names_short_iff "C" rfl]

theorem fixed_format_decision_witness :
    (CanUseFixedMpsFormat ["V1"] ["C12345678"] = true ↔
      ∀ s ∈ ["V1"] ++ ["C12345678"], s.length ≤ 8) ∧
    CanUseFixedMpsFormat ["V1"] ["C12345678"] = false :=
  ⟨fixed_format_decision.1 ["V1"] ["C12345678"], by decide⟩

/-- C4: on any raw input (duplicates, empties, illegal characters included)
the non-obfuscated name table has pairwise-distinct, non-empty, charset-legal
entries, built independently per table, and a collision with an earlier
assigned name of the same table is resolved by appending "_k" for the
smallest k ≥ 1 avoiding a collision. -/
theorem name_table_uniqueness (rawNames : List (Option String)) (pfx : String)
    (maxLen : Nat) (hp : legalNameB pfx = true) :
    (ExtractAndProcessNames rawNames pfx false maxLen).Nodup ∧
    (∀ s ∈ ExtractAndProcessNames rawNames pfx false maxLen,
      legalNameB s = true) ∧
    (∀ (assigned : List String) (base : String),
      uniquify assigned base ∉ assigned ∧
      (uniquify assigned base = base ∨
        (base ∈ assigned ∧ ∃ k, 1 ≤ k ∧
          uniquify assigned base = appendSuffix base k ∧
          ∀ j, 1 ≤ j → j < k → appendSuffix base j ∈ assigned))) := by
  refine ⟨ExtractAndProcessNames_nodup rawNames pfx false maxLen,
    ExtractAndProcessNames_legal hp rawNames false maxLen,
    fun assigned base => uniquify_spec assigned base⟩

theorem name_table_uniqueness_witness :
    ((ExtractAndProcessNames [some "a", some "a", some "a_1", none, some ""]
        "C" false 255).Nodup ∧
      (∀ s ∈ ExtractAndProcessNames [some "a", some "a", some "a_1", none, some ""]
        "C" false 255, legalNameB s = true) ∧
      (∀ (assigned : List String) (base : String),
        uniquify assigned base ∉ assigned ∧
        (uniquify assigned base = base ∨
          (base ∈ assigned ∧ ∃ k, 1 ≤ k ∧
            uniquify assigned base = appendSuffix base k ∧
            ∀ j, 1 ≤ j → j < k → appendSuffix base j ∈ assigned)))) ∧
    ExtractAndProcessNames [some "a", some "a", some "a_1", none, some ""]
      "C" false 255 = ["a", "a_1", "a_1_1", "C4", "C5"] :=
  ⟨name_table_uniqueness [some "a", some "a", some "a_1", none, some ""]
      "C" 255 (by decide),
    by decide⟩

/-- Model with two raw-named variables and two constraints, used to witness
obfuscation. -/
def twoVarModel : MPModelProto :=
  ⟨"m", false, 0,
    [⟨.fin 0, .posInf, 1, false, some "x"⟩,
      ⟨.fin 0, .posInf, 1, false, some "y"⟩],
    [⟨.fin 0, .posInf, some "r", [(0, 1)]⟩,
      ⟨.fin 0, .posInf, some "s", [(1, 1)]⟩]⟩

/-- C5: with obfuscation the exporter's display name of the entity at
0-based index i is the prefix followed by the 1-based index ("V" for
variables, "C" for constraints), independent of the original raw names. -/
theorem obfuscation_names (m : MPModelProto) (i j : Nat)
    (hi : i < m.vars.length) (hj : j < m.constraints.length) :
    (buildNameTables m true).1[i]? = some ("V" ++ natRepr (i + 1)) ∧
    (buildNameTables m true).2[j]? = some ("C" ++ natRepr (j + 1)) ∧
    ∀ m' : MPModelProto, m'.vars.length = m.vars.length →
      m'.constraints.length = m.constraints.length →
      buildNameTables m' true = buildNameTables m true := by
  refine ⟨?_, ?_, ?_⟩
  · show (ExtractAndProcessNames (m.vars.map (fun v => v.name)) "V" true
      kMaxNameLength)[i]? = some ("V" ++ natRepr (i + 1))
    rw [ExtractAndProcessNames_obfuscated, List.getElem?_map,
      List.getElem?_range (by simpa using hi)]
    rfl
  · show (ExtractAndProcessNames (m.constraints.map (fun c => c.name)) "C" true
      kMaxNameLength)[j]? = some ("C" ++ natRepr (j + 1))
    rw [ExtractAndProcessNames_obfuscated, List.getElem?_map,
      List.getElem?_range (by simpa using hj)]
    rfl
  · intro m' h1 h2
    simp [buildNameTables, ExtractAndProcessNames_obfuscated, List.length_map,
      h1, h2]

theorem obfuscation_names_witness :
    ((buildNameTables twoVarModel true).1[0]? = some ("V" ++ natRepr 1) ∧
      (buildNameTables twoVarModel true).2[1]? = some ("C" ++ natRepr 2) ∧
      ∀ m' : MPModelProto, m'.vars.length = twoVarModel.vars.length →
        m'.constraints.length = twoVarModel.constraints.length →
        buildNameTables m' true = buildNameTables twoVarModel true) ∧
    "V" ++ natRepr 1 = "V1" ∧ "C" ++ natRepr 2 = "C2" :=
  ⟨obfuscation_names twoVarModel 0 1 (by decide) (by decide), rfl, rfl⟩

/-- C10: when obfuscation is off and a raw name exceeds the maximum allowed
name length, the name builder treats it exactly like an absent name
(discarding it entirely) and the entity receives the obfuscated-style name
prefix + 1-based index, up to the usual collision suffix (header lines
106-107). -/
theorem long_raw_name_discarded (rawNames : List (Option String)) (pfx : String)
    (maxLen i : Nat) (s : String)
    (hget : rawNames[i]? = some (some s)) (hlen : maxLen < s.length) :
    ExtractAndProcessNames rawNames pfx false maxLen =
      ExtractAndProcessNames (rawNames.set i none) pfx false maxLen ∧
    ∃ nm, (ExtractAndProcessNames rawNames pfx false maxLen)[i]? = some nm ∧
      (nm = obfuscatedName pfx i ∨
        ∃ k, 1 ≤ k ∧ nm = appendSuffix (obfuscatedName pfx i) k) := by
  constructor
  · exact ExtractAndProcessNamesFrom_set_none pfx maxLen rawNames i s 0 []
      hget hlen
  · obtain ⟨asg, hasg⟩ := ExtractAndProcessNamesFrom_entry pfx maxLen rawNames i
      (some s) 0 [] hget
    rw [Nat.zero_add] at hasg
    have hbase : nameBase pfx maxLen i (some s) = obfuscatedName pfx i := by
      show (if s.length = 0 then obfuscatedName pfx i
        else if maxLen < s.length then obfuscatedName pfx i
        else sanitizeName s) = obfuscatedName pfx i
      rw [if_neg (by omega), if_pos hlen]
    rw [hbase] at hasg
    refine ⟨uniquify asg (obfuscatedName pfx i), hasg, ?_⟩
    rcases (uniquify_spec asg (obfuscatedName pfx i)).2 with h | ⟨_, k, hk1, hk2, _⟩
    · exact Or.inl h
    · exact Or.inr ⟨k, hk1, hk2⟩

theorem long_raw_name_discarded_witness :
    (ExtractAndProcessNames [some "aaaaaaaa"] "V" false 5 =
      ExtractAndProcessNames ([some "aaaaaaaa"].set 0 none) "V" false 5 ∧
    ∃ nm, (ExtractAndProcessNames [some "aaaaaaaa"] "V" false 5)[0]? = some nm ∧
      (nm = obfuscatedName "V" 0 ∨
        ∃ k, 1 ≤ k ∧ nm = appendSuffix (obfuscatedName "V" 0) k)) ∧
    ExtractAndProcessNames [some "aaaaaaaa"] "V" false 5 = ["V1"] :=
  ⟨long_raw_name_discarded [some "aaaaaaaa"] "V" 5 0 "aaaaaaaa" rfl (by decide),
    by decide⟩

/-- C9: exporting twice with identical (Model, request) inputs yields
identical texts, both on the same exporter instance (the second call runs on
the state left by the first) and on a fresh instance; and the name tables
the instance serves after an export are exactly the tables name building
produces for that input. -/
theorem export_determinism (m : MPModelProto) (req : ExportRequest) :
    (exportCall m req (exportCall m req freshExporter).2).1 =
      (exportCall m req freshExporter).1 ∧
    ∀ obf : Bool, (getNameTables m obf (exportCall m req freshExporter).2).1 =
      buildNameTables m obf := by
  cases req with
  | lpFormat obf =>
    refine ⟨?_, ?_⟩
    · simp [exportCall, getNameTables, freshExporter]
    · intro obf2
      by_cases h : obf = obf2
      · subst h
        simp [exportCall, getNameTables, freshExporter]
      · simp [exportCall, getNameTables, freshExporter, h]
  | mpsFormat ff obf =>
    refine ⟨?_, ?_⟩
    · simp [exportCall, getNameTables, freshExporter]
    · intro obf2
      by_cases h : obf = obf2
      · subst h
        simp [exportCall, getNameTables, freshExporter]
      · simp [exportCall, getNameTables, freshExporter, h]

/-- Invariant of the MPS line builder: every finished line is a data line
with at most two pairs, and the pending pair count equals the running column
counter, which stays at most 1 between calls. -/
def mpsStateOK (st : MpsEmitState) : Prop :=
  (∀ x ∈ st.lines, ∃ hd ps, x = MpsLine.dataLine hd ps ∧ ps.length ≤ 2) ∧
  st.pairs.length = st.col ∧ st.col ≤ 1

theorem initMpsEmitState_ok : mpsStateOK initMpsEmitState := by
  refine ⟨?_, rfl, Nat.zero_le 1⟩
  intro x hx
  exact absurd hx (List.not_mem_nil x)

theorem AppendMpsTermWithContext_ok {st : MpsEmitState} (h : mpsStateOK st)
    (hd nm : String) (v : Int) :
    mpsStateOK (AppendMpsTermWithContext hd nm v st) := by
  obtain ⟨hlines, hplen, hcol⟩ := h
  unfold AppendMpsTermWithContext AppendNewLineIfTwoColumns
  by_cases h0 : st.col = 0
  · rw [if_pos h0]
    rw [if_neg (show ¬(st.col + 1 = 2) by omega)]
    refine ⟨?_, ?_, ?_⟩
    · intro x hx
      exact hlines x hx
    · show (st.pairs ++ [(nm, v)]).length = st.col + 1
      rw [List.length_append, hplen]
      rfl
    · show st.col + 1 ≤ 1
      omega
  · have h1 : st.col = 1 := by omega
    rw [if_neg h0]
    rw [if_pos (show st.col + 1 = 2 by omega)]
    refine ⟨?_, rfl, Nat.zero_le 1⟩
    intro x hx
    rcases List.mem_append.mp hx with hmem | hmem
    · exact hlines x hmem
    · rw [List.mem_singleton] at hmem
      refine ⟨_, _, hmem, ?_⟩
      show (st.pairs ++ [(nm, v)]).length ≤ 2
      rw [List.length_append, hplen, h1, List.length_singleton]

theorem flushMpsLine_ok {st : MpsEmitState} (h : mpsStateOK st) :
    mpsStateOK (flushMpsLine st) := by
  obtain ⟨hlines, hplen, hcol⟩ := h
  unfold flushMpsLine
  by_cases h0 : st.col = 0
  · rw [if_pos h0]
    exact ⟨hlines, hplen, hcol⟩
  · rw [if_neg h0]
    refine ⟨?_, rfl, Nat.zero_le 1⟩
    intro x hx
    rcases List.mem_append.mp hx with hmem | hmem
    · exact hlines x hmem
    · rw [List.mem_singleton] at hmem
      exact ⟨st.headName, st.pairs, hmem, by omega⟩

theorem foldl_terms_ok (varName : String) :
    ∀ (entries : List (String × Int)) (st : MpsEmitState), mpsStateOK st →
      mpsStateOK (entries.foldl
        (fun s q => AppendMpsTermWithContext varName q.1 q.2 s) st) := by
  intro entries
  induction entries with
  | nil => intro st h; exact h
  | cons q rest ih =>
    intro st h
    rw [List.foldl_cons]
    exact ih _ (AppendMpsTermWithContext_ok h varName q.1 q.2)

theorem emitColumn_ok (varName : String) (entries : List (String × Int))
    {st : MpsEmitState} (h : mpsStateOK st) :
    mpsStateOK (emitColumn varName entries st) :=
  flushMpsLine_ok (foldl_terms_ok varName entries st h)

theorem emitColumns_fold_ok :
    ∀ (cols : List (String × List (String × Int))) (st : MpsEmitState),
      mpsStateOK st →
      mpsStateOK (cols.foldl (fun st p => emitColumn p.1 p.2 st) st) := by
  intro cols
  induction cols with
  | nil => intro st h; exact h
  | cons p rest ih =>
    intro st h
    rw [List.foldl_cons]
    exact ih _ (emitColumn_ok p.1 p.2 h)

theorem emitColumns_shape (cols : List (String × List (String × Int))) :
    ∀ x ∈ emitColumns cols,
      ∃ hd ps, x = MpsLine.dataLine hd ps ∧ ps.length ≤ 2 :=
  fun x hx =>
    (emitColumns_fold_ok cols initMpsEmitState initMpsEmitState_ok).1 x hx

theorem mpsColumnsSection_shape (m : MPModelProto) (vn cn : List String) :
    ∀ x ∈ mpsColumnsSection m vn cn,
      (∃ hd ps, x = MpsLine.dataLine hd ps ∧ ps.length ≤ 2) ∨
        ∃ tok, x = MpsLine.marker tok := by
  intro x hx
  simp only [mpsColumnsSection] at hx
  rcases List.mem_append.mp hx with h | h
  · exact Or.inl (emitColumns_shape _ x h)
  · split at h
    · exact absurd h (List.not_mem_nil x)
    · rcases List.mem_cons.mp h with h2 | h2
      · exact Or.inr ⟨"INTORG", h2⟩
      · rcases List.mem_append.mp h2 with h3 | h3
        · exact Or.inl (emitColumns_shape _ x h3)
        · rw [List.mem_singleton] at h3
          exact Or.inr ⟨"INTEND", h3⟩

theorem mpsRowsSection_shape (m : MPModelProto) (cn : List String) :
    ∀ x ∈ mpsRowsSection m cn, ∃ t n, x = MpsLine.rowEntry t n := by
  intro x hx
  rw [mpsRowsSection] at hx
  rcases List.mem_cons.mp hx with h | h
  · exact ⟨"N", objRowName, h⟩
  · rw [List.mem_map] at h
    obtain ⟨p, hp, rfl⟩ := h
    exact ⟨_, _, rfl⟩

theorem mpsRhsSection_shape (m : MPModelProto) (cn : List String) :
    ∀ x ∈ mpsRhsSection m cn, ∃ nm v, x = MpsLine.rhsEntry nm v := by
  intro x hx
  rw [mpsRhsSection, List.mem_filterMap] at hx
  obtain ⟨p, hp, hx2⟩ := hx
  cases hr : rhsValueOf p.2 with
  | none => rw [hr] at hx2; exact absurd hx2 (by simp)
  | some r =>
    rw [hr] at hx2
    simp only [Option.map_some'] at hx2
    exact ⟨p.1, r, (Option.some_injective _ hx2).symm⟩

theorem mpsRangesSection_shape (m : MPModelProto) (cn : List String) :
    ∀ x ∈ mpsRangesSection m cn, ∃ nm w, x = MpsLine.rangeEntry nm w := by
  intro x hx
  rw [mpsRangesSection, List.mem_filterMap] at hx
  obtain ⟨p, hp, hx2⟩ := hx
  cases hr : rangeWidthOf p.2 with
  | none => rw [hr] at hx2; exact absurd hx2 (by simp)
  | some w =>
    rw [hr] at hx2
    simp only [Option.map_some'] at hx2
    exact ⟨p.1, w, (Option.some_injective _ hx2).symm⟩

theorem mpsBoundsSection_shape (m : MPModelProto) (vn : List String) :
    ∀ x ∈ mpsBoundsSection m vn, ∃ t n mv, x = MpsLine.boundEntry t n mv := by
  intro x hx
  rw [mpsBoundsSection, List.mem_flatMap] at hx
  obtain ⟨p, hp, hx2⟩ := hx
  rw [mpsBoundLinesFor, List.mem_map] at hx2
  obtain ⟨q, hq, rfl⟩ := hx2
  exact ⟨_, _, _, rfl⟩

theorem mem_of_mem_ite_nil {α : Type} {c : Prop} [Decidable c] {l : List α}
    {x : α} (h : x ∈ (if c then ([] : List α) else l)) : x ∈ l := by
  split at h
  · exact absurd h (List.not_mem_nil x)
  · exact h

theorem writeMps_ok_lines {m : MPModelProto} {vn cn : List String}
    {uf : Bool} {out : MpsOutput} (hout : writeMps m vn cn uf = .ok out) :
    out.lines = mpsLines m vn cn ∧ out.fixedFormat = uf := by
  rw [writeMps] at hout
  by_cases h1 : validIndices m = false
  · rw [if_pos h1] at hout
    exact absurd hout (by simp)
  · rw [if_neg h1] at hout
    by_cases h2 : m.maximize = true
    · rw [if_pos h2] at hout
      exact absurd hout (by simp)
    · rw [if_neg h2] at hout
      have h3 := Except.ok.inj hout
      rw [← h3]
      exact ⟨rfl, rfl⟩

/-- C8: in the MPS output, every data line emitted by the COLUMNS machinery
carries at most two (row-name, value) pairs: the running column counter
`current_mps_column_` forces a line break after the second pair (header
lines 153-163, 196-197). -/
theorem mps_columns_line_limit (m : MPModelProto) (ff obf : Bool)
    (out : MpsOutput) (hout : ExportModelAsMpsFormat m ff obf = .ok out) :
    ∀ x ∈ out.lines, ∀ (hd : String) (ps : List (String × Int)),
      x = MpsLine.dataLine hd ps → ps.length ≤ 2 := by
  rw [ExportModelAsMpsFormat] at hout
  have hlines := (writeMps_ok_lines hout).1
  intro x hx hd ps hxps
  subst hxps
  rw [hlines, mpsLines] at hx
  rcases List.mem_cons.mp hx with h | hx2
  · exact absurd h (by simp)
  rcases List.mem_cons.mp hx2 with h | hx3
  · exact absurd h (by simp)
  rcases List.mem_append.mp hx3 with hx4 | hend
  rotate_left
  · rw [List.mem_singleton] at hend
    exact absurd hend (by simp)
  rcases List.mem_append.mp hx4 with hx5 | hbounds
  rotate_left
  · have hb := mem_of_mem_ite_nil hbounds
    rcases List.mem_cons.mp hb with h | h
    · exact absurd h (by simp)
    · obtain ⟨t, n, mv, heq⟩ := mpsBoundsSection_shape m _ _ h
      exact absurd heq (by simp)
  rcases List.mem_append.mp hx5 with hx6 | hranges
  rotate_left
  · have hr := mem_of_mem_ite_nil hranges
    rcases List.mem_cons.mp hr with h | h
    · exact absurd h (by simp)
    · obtain ⟨nm, w, heq⟩ := mpsRangesSection_shape m _ _ h
      exact absurd heq (by simp)
  rcases List.mem_append.mp hx6 with hx7 | hrhs
  rotate_left
  · rcases List.mem_cons.mp hrhs with h | h
    · exact absurd h (by simp)
    · obtain ⟨nm, v, heq⟩ := mpsRhsSection_shape m _ _ h
      exact absurd heq (by simp)
  rcases List.mem_append.mp hx7 with hrows | hcols
  · obtain ⟨t, n, heq⟩ := mpsRowsSection_shape m _ _ hrows
    exact absurd heq (by simp)
  · rcases List.mem_cons.mp hcols with h | h
    · exact absurd h (by simp)
    · rcases mpsColumnsSection_shape m _ _ _ h with ⟨hd2, ps2, heq, hle⟩ | ⟨tok, heq⟩
      · obtain ⟨e1, e2⟩ := MpsLine.dataLine.inj heq
        rw [e2]
        exact hle
      · exact absurd heq (by simp)

/-- Model with two variables (one integer), two constraints each touching
both variables, and nonzero objective coefficients: its COLUMNS section has
multi-pair lines. -/
def denseModel : MPModelProto :=
  ⟨"m", false, 0,
    [⟨.fin 0, .posInf, 1, false, some "x"⟩,
      ⟨.fin 0, .fin 4, 2, true, some "y"⟩],
    [⟨.fin 1, .fin 3, some "r", [(0, 1), (1, 2)]⟩,
      ⟨.negInf, .fin 7, some "s", [(0, 3), (1, 4)]⟩]⟩

theorem mps_columns_line_limit_witness :
    ([("COST", (1 : Int)), ("r", 1)] : List (String × Int)).length ≤ 2 :=
  mps_columns_line_limit denseModel false false
    ⟨false, mpsLines denseModel (buildNameTables denseModel false).1
      (buildNameTables denseModel false).2⟩ rfl
    (MpsLine.dataLine "x" [("COST", 1), ("r", 1)]) (by decide)
    "x" [("COST", 1), ("r", 1)] rfl

theorem getElem?_zip_of {α β : Type} {l1 : List α} {l2 : List β} {i : Nat}
    {a : α} {b : β} (h1 : l1[i]? = some a) (h2 : l2[i]? = some b) :
    (l1.zip l2)[i]? = some (a, b) := by
  obtain ⟨ha, hae⟩ := List.getElem?_eq_some_iff.mp h1
  obtain ⟨hb, hbe⟩ := List.getElem?_eq_some_iff.mp h2
  have hz : i < (l1.zip l2).length := by
    rw [List.length_zip]
    exact lt_min_iff.mpr ⟨ha, hb⟩
  rw [List.getElem?_eq_getElem hz, List.getElem_zip, hae, hbe]

theorem map_eq_flatMap {α β : Type} (f : α → β) (l : List α) :
    l.map f = l.flatMap (fun a => [f a]) := by
  induction l with
  | nil => rfl
  | cons a t ih =>
    rw [List.map_cons, List.flatMap_cons, ih]
    rfl

theorem filterMap_eq_flatMap {α β : Type} (f : α → Option β) (l : List α) :
    l.filterMap f = l.flatMap (fun a => (f a).toList) := by
  induction l with
  | nil => rfl
  | cons a t ih =>
    rw [List.filterMap_cons, List.flatMap_cons]
    cases hf : f a with
    | none => simp [Option.toList, ih]
    | some b => simp [Option.toList, ih]

theorem countP_flatMap_single {α : Type} (g : α → List MpsLine)
    (nameOf : α → String) (pred : MpsLine → Bool) (target : String) :
    ∀ (l : List α) (i : Nat) (a : α),
      l[i]? = some a →
      (l.map nameOf).Nodup →
      nameOf a = target →
      (∀ b ∈ l, ∀ x ∈ g b, pred x = true → nameOf b = target) →
      (l.flatMap g).countP pred = (g a).countP pred := by
  intro l
  induction l with
  | nil =>
    intro i a hget
    exact absurd hget (by simp)
  | cons b0 rest ih =>
    intro i a hget hnodup htarget hother
    rw [List.flatMap_cons, List.countP_append]
    rw [List.map_cons, List.nodup_cons] at hnodup
    match i with
    | 0 =>
      rw [List.getElem?_cons_zero] at hget
      have hb := Option.some_injective _ hget
      subst hb
      have hrest : (rest.flatMap g).countP pred = 0 := by
        rw [List.countP_eq_zero]
        intro x hx hpred
        rw [List.mem_flatMap] at hx
        obtain ⟨b, hb, hxb⟩ := hx
        have hname := hother b (List.mem_cons_of_mem _ hb) x hxb hpred
        have hmm : nameOf b0 ∈ rest.map nameOf := by
          rw [htarget, ← hname]
          exact List.mem_map.mpr ⟨b, hb, rfl⟩
        exact hnodup.1 hmm
      rw [hrest]
      omega
    | j + 1 =>
      rw [List.getElem?_cons_succ] at hget
      have hhead : (g b0).countP pred = 0 := by
        rw [List.countP_eq_zero]
        intro x hx hpred
        have h1 := hother b0 (List.mem_cons_self _ _) x hx hpred
        have ha : a ∈ rest := by
          obtain ⟨hlt, he⟩ := List.getElem?_eq_some_iff.mp hget
          exact he ▸ List.getElem_mem hlt
        have hmm : nameOf b0 ∈ rest.map nameOf := by
          rw [h1, ← htarget]
          exact List.mem_map.mpr ⟨a, ha, rfl⟩
        exact hnodup.1 hmm
      rw [hhead,
        ih j a hget hnodup.2 htarget
          (fun b hb => hother b (List.mem_cons_of_mem _ hb))]
      omega

theorem lpConstraintsBlocks_mem {varNames : List String} :
    ∀ (l : List (String × MPConstraintProto)) (i : Nat) (nm : String)
      (ct : MPConstraintProto) (L : List LpLine) (ts : List (String × Int)),
      l[i]? = some (nm, ct) →
      lpConstraintsBlocks varNames l = .ok L →
      constraintTermsE varNames ct.coefficients = .ok ts →
      ∀ x ∈ lpConstraintBlock nm ts ct.lowerBound ct.upperBound, x ∈ L := by
  intro l
  induction l with
  | nil =>
    intro i nm ct L ts hget
    exact absurd hget (by simp)
  | cons p rest ih =>
    intro i nm ct L ts hget hL hts
    cases hts0 : constraintTermsE varNames p.2.coefficients with
    | error e =>
      rw [lpConstraintsBlocks, hts0] at hL
      exact absurd hL (by simp)
    | ok ts0 =>
      cases htail : lpConstraintsBlocks varNames rest with
      | error e =>
        rw [lpConstraintsBlocks, hts0, htail] at hL
        exact absurd hL (by simp)
      | ok L2 =>
        rw [lpConstraintsBlocks, hts0, htail] at hL
        have hL2 := Except.ok.inj hL
        match i with
        | 0 =>
          rw [List.getElem?_cons_zero] at hget
          have hp := Option.some_injective _ hget
          subst hp
          rw [hts0] at hts
          have hts0ts : ts0 = ts := Except.ok.inj hts
          intro x hx
          rw [← hL2]
          apply List.mem_append_left
          rw [hts0ts]
          exact hx
        | j + 1 =>
          rw [List.getElem?_cons_succ] at hget
          intro x hx
          rw [← hL2]
          exact List.mem_append_right _ (ih j nm ct L2 ts hget htail hts x hx)

/-- Predicate selecting the ROWS entry of the constraint named `cname`: a
row entry whose type code is not the objective's N and whose row name
matches. -/
def isConstraintRowFor (cname : String) : MpsLine → Bool
  | .rowEntry t n => !(t == "N") && n == cname
  | _ => false

theorem rows_count (m : MPModelProto) (consNames : List String)
    (hlen : consNames.length = m.constraints.length)
    (hnodup : consNames.Nodup) (i : Nat) (cname : String)
    (ct : MPConstraintProto) (hcn : consNames[i]? = some cname)
    (hct : m.constraints[i]? = some ct) (hN : rowTypeOf ct ≠ "N") :
    (mpsRowsSection m consNames).countP (isConstraintRowFor cname) = 1 := by
  rw [mpsRowsSection, List.countP_cons]
  have hhead : isConstraintRowFor cname (MpsLine.rowEntry "N" objRowName) = false := by
    simp [isConstraintRowFor]
  rw [hhead, if_neg (by simp)]
  rw [map_eq_flatMap]
  rw [countP_flatMap_single
      (fun p => [MpsLine.rowEntry (rowTypeOf p.2) p.1]) Prod.fst
      (isConstraintRowFor cname) cname (consNames.zip m.constraints) i (cname, ct)
      (getElem?_zip_of hcn hct)
      (by rw [List.map_fst_zip consNames m.constraints (le_of_eq hlen)]
          exact hnodup)
      rfl
      (by intro b hb x hx hpred
          rw [List.mem_singleton] at hx
          subst hx
          simp only [isConstraintRowFor, Bool.and_eq_true, beq_iff_eq] at hpred
          exact hpred.2)]
  simp [isConstraintRowFor, List.countP_cons, hN]

theorem ranges_count (m : MPModelProto) (consNames : List String)
    (hlen : consNames.length = m.constraints.length)
    (hnodup : consNames.Nodup) (i : Nat) (cname : String)
    (ct : MPConstraintProto) (hcn : consNames[i]? = some cname)
    (hct : m.constraints[i]? = some ct) (w : Int)
    (hw : rangeWidthOf ct = some w) :
    (mpsRangesSection m consNames).countP
      (fun x => decide (x = MpsLine.rangeEntry cname w)) = 1 := by
  rw [mpsRangesSection, filterMap_eq_flatMap]
  rw [countP_flatMap_single
      (fun p => ((rangeWidthOf p.2).map (fun w2 => MpsLine.rangeEntry p.1 w2)).toList)
      Prod.fst (fun x => decide (x = MpsLine.rangeEntry cname w)) cname
      (consNames.zip m.constraints) i (cname, ct)
      (getElem?_zip_of hcn hct)
      (by rw [List.map_fst_zip consNames m.constraints (le_of_eq hlen)]
          exact hnodup)
      rfl
      (by intro b hb x hx hpred
          dsimp only at hx hpred
          cases hr : rangeWidthOf b.2 with
          | none => rw [hr] at hx; exact absurd hx (by simp [Option.toList])
          | some w2 =>
            rw [hr] at hx
            simp only [Option.map_some', Option.toList, List.mem_singleton] at hx
            subst hx
            rw [decide_eq_true_eq] at hpred
            exact (MpsLine.rangeEntry.inj hpred).1)]
  rw [hw]
  simp

theorem count_isConstraintRow (m : MPModelProto) (vn cn : List String)
    (cname : String) :
    (mpsLines m vn cn).countP (isConstraintRowFor cname) =
      (mpsRowsSection m cn).countP (isConstraintRowFor cname) := by
  rw [mpsLines]
  simp only [List.countP_cons, List.countP_append]
  have hcols : (mpsColumnsSection m vn cn).countP (isConstraintRowFor cname) = 0 := by
    rw [List.countP_eq_zero]
    intro x hx
    rcases mpsColumnsSection_shape m vn cn x hx with ⟨hd, ps, rfl, _⟩ | ⟨tok, rfl⟩ <;>
      simp [isConstraintRowFor]
  have hrhs : (mpsRhsSection m cn).countP (isConstraintRowFor cname) = 0 := by
    rw [List.countP_eq_zero]
    intro x hx
    obtain ⟨nm, v, rfl⟩ := mpsRhsSection_shape m cn x hx
    simp [isConstraintRowFor]
  have hranges : (if (mpsRangesSection m cn).isEmpty then ([] : List MpsLine)
      else MpsLine.header "RANGES" :: mpsRangesSection m cn).countP
        (isConstraintRowFor cname) = 0 := by
    split
    · rfl
    · rw [List.countP_cons, List.countP_eq_zero.mpr, if_neg (by simp [isConstraintRowFor])]
      intro x hx
      obtain ⟨nm, w, rfl⟩ := mpsRangesSection_shape m cn x hx
      simp [isConstraintRowFor]
  have hbounds : (if (mpsBoundsSection m vn).isEmpty then ([] : List MpsLine)
      else MpsLine.header "BOUNDS" :: mpsBoundsSection m vn).countP
        (isConstraintRowFor cname) = 0 := by
    split
    · rfl
    · rw [List.countP_cons, List.countP_eq_zero.mpr, if_neg (by simp [isConstraintRowFor])]
      intro x hx
      obtain ⟨t, n, mv, rfl⟩ := mpsBoundsSection_shape m vn x hx
      simp [isConstraintRowFor]
  rw [hcols, hrhs, hranges, hbounds]
  simp [isConstraintRowFor]

theorem count_isRangeEntry (m : MPModelProto) (vn cn : List String)
    (cname : String) (w : Int) :
    (mpsLines m vn cn).countP (fun x => decide (x = MpsLine.rangeEntry cname w)) =
      (mpsRangesSection m cn).countP
        (fun x => decide (x = MpsLine.rangeEntry cname w)) := by
  rw [mpsLines]
  simp only [List.countP_cons, List.countP_append]
  have hrows : (mpsRowsSection m cn).countP
      (fun x => decide (x = MpsLine.rangeEntry cname w)) = 0 := by
    rw [List.countP_eq_zero]
    intro x hx
    obtain ⟨t, n, rfl⟩ := mpsRowsSection_shape m cn x hx
    simp
  have hcols : (mpsColumnsSection m vn cn).countP
      (fun x => decide (x = MpsLine.rangeEntry cname w)) = 0 := by
    rw [List.countP_eq_zero]
    intro x hx
    rcases mpsColumnsSection_shape m vn cn x hx with ⟨hd, ps, rfl, _⟩ | ⟨tok, rfl⟩ <;>
      simp
  have hrhs : (mpsRhsSection m cn).countP
      (fun x => decide (x = MpsLine.rangeEntry cname w)) = 0 := by
    rw [List.countP_eq_zero]
    intro x hx
    obtain ⟨nm, v, rfl⟩ := mpsRhsSection_shape m cn x hx
    simp
  have hbounds : (if (mpsBoundsSection m vn).isEmpty then ([] : List MpsLine)
      else MpsLine.header "BOUNDS" :: mpsBoundsSection m vn).countP
        (fun x => decide (x = MpsLine.rangeEntry cname w)) = 0 := by
    split
    · rfl
    · rw [List.countP_cons, List.countP_eq_zero.mpr, if_neg (by simp)]
      intro x hx
      obtain ⟨t, n, mv, rfl⟩ := mpsBoundsSection_shape m vn x hx
      simp
  have hranges : (if (mpsRangesSection m cn).isEmpty then ([] : List MpsLine)
      else MpsLine.header "RANGES" :: mpsRangesSection m cn).countP
        (fun x => decide (x = MpsLine.rangeEntry cname w)) =
      (mpsRangesSection m cn).countP
        (fun x => decide (x = MpsLine.rangeEntry cname w)) := by
    split
    · rename_i hempty
      rw [List.isEmpty_iff.mp hempty]
    · rw [List.countP_cons]
      simp
  rw [hrows, hcols, hrhs, hbounds, hranges]
  simp

/-- C6: a doubly-bounded range constraint (both bounds finite and distinct)
yields in the LP output two lines derived from the same row — one encoding
expr >= lower, one encoding expr <= upper, each with its own label — while
the MPS output carries exactly one ROWS entry and exactly one RANGES entry
of width upper - lower for that constraint (spec §4.3, §4.4; header lines
126-130). -/
theorem range_expansion (m : MPModelProto) (ff obf : Bool) (i : Nat)
    (l u : Int) (ct : MPConstraintProto)
    (hv : validIndices m = true) (hm : m.maximize = false)
    (hct : m.constraints[i]? = some ct)
    (hl : ct.lowerBound = .fin l) (hu : ct.upperBound = .fin u) (hlu : l ≠ u) :
    ∃ cname ts lines out,
      (buildNameTables m obf).2[i]? = some cname ∧
      ExportModelAsLpFormat m obf = .ok lines ∧
      constraintTermsE (buildNameTables m obf).1 ct.coefficients = .ok ts ∧
      LpLine.constraintLine (cname ++ "_1") ts .geRel l ∈ lines ∧
      LpLine.constraintLine (cname ++ "_2") ts .leRel u ∈ lines ∧
      ExportModelAsMpsFormat m ff obf = .ok out ∧
      out.lines.countP (isConstraintRowFor cname) = 1 ∧
      out.lines.countP
        (fun x => decide (x = MpsLine.rangeEntry cname (u - l))) = 1 := by
  have hvl := (buildNameTables_lengths m obf).1
  have hcl := (buildNameTables_lengths m obf).2
  have hilt : i < m.constraints.length := (List.getElem?_eq_some_iff.mp hct).1
  have hicn : i < (buildNameTables m obf).2.length := by omega
  have hcname : (buildNameTables m obf).2[i]? =
      some ((buildNameTables m obf).2[i]) := List.getElem?_eq_getElem hicn
  have hctmem : ct ∈ m.constraints := by
    obtain ⟨hlt, he⟩ := List.getElem?_eq_some_iff.mp hct
    exact he ▸ List.getElem_mem hlt
  have hcoeffs : ∀ q ∈ ct.coefficients, q.1 < (buildNameTables m obf).1.length := by
    intro q hq
    rw [validIndices, List.all_eq_true] at hv
    have h1 := hv ct hctmem
    rw [List.all_eq_true] at h1
    have h2 := of_decide_eq_true (h1 q hq)
    omega
  obtain ⟨ts, hts⟩ := constraintTermsE_ok ct.coefficients hcoeffs
  have hvalid : validIndices m = true := by
    cases hvv : validIndices m with
    | true => rfl
    | false =>
      rw [validIndices, List.all_eq_true] at hv
      rw [validIndices, List.all_eq_false] at hvv
      obtain ⟨c, hc, hbad⟩ := hvv
      exact absurd (hv c hc) hbad
  obtain ⟨ctLines, hblocks⟩ := lpConstraintsBlocks_ok
    ((buildNameTables m obf).2.zip m.constraints)
    (zip_coeff_bound_of_validIndices hvalid hvl)
  have hblockeq : lpConstraintBlock ((buildNameTables m obf).2[i]) ts
      ct.lowerBound ct.upperBound =
      [LpLine.constraintLine ((buildNameTables m obf).2[i] ++ "_1") ts .geRel l,
        LpLine.constraintLine ((buildNameTables m obf).2[i] ++ "_2") ts .leRel u] := by
    rw [hl, hu]
    show (if l = u then _ else _) = _
    rw [if_neg hlu]
  have hmemblock := lpConstraintsBlocks_mem
    ((buildNameTables m obf).2.zip m.constraints) i
    ((buildNameTables m obf).2[i]) ct ctLines ts
    (getElem?_zip_of hcname hct) hblocks hts
  have hmem1 : LpLine.constraintLine ((buildNameTables m obf).2[i] ++ "_1")
      ts .geRel l ∈ ctLines := by
    apply hmemblock
    rw [hblockeq]
    exact List.mem_cons_self _ _
  have hmem2 : LpLine.constraintLine ((buildNameTables m obf).2[i] ++ "_2")
      ts .leRel u ∈ ctLines := by
    apply hmemblock
    rw [hblockeq]
    exact List.mem_cons_of_mem _ (List.mem_cons_self _ _)
  have hN : rowTypeOf ct ≠ "N" := by
    rw [rowTypeOf, hl, hu]
    show (if l = u then "E" else "G") ≠ "N"
    rw [if_neg hlu]
    decide
  have hwidth : rangeWidthOf ct = some (u - l) := by
    rw [rangeWidthOf, hl, hu]
    show (if l = u then none else some (u - l)) = some (u - l)
    rw [if_neg hlu]
  have hnodup : (buildNameTables m obf).2.Nodup := by
    show (ExtractAndProcessNames (m.constraints.map (fun c => c.name)) "C" obf
      kMaxNameLength).Nodup
    exact ExtractAndProcessNames_nodup (m.constraints.map (fun c => c.name)) "C"
      obf kMaxNameLength
  refine ⟨(buildNameTables m obf).2[i], ts,
    LpLine.sense m.maximize ::
      LpLine.objective (lpObjectiveTerms m (buildNameTables m obf).1)
        m.objectiveOffset ::
      LpLine.sectionHeader "Subject To" ::
      (ctLines ++
        (LpLine.sectionHeader "Bounds" :: lpBoundLines m (buildNameTables m obf).1) ++
        (LpLine.sectionHeader "General" :: lpGeneralLines m (buildNameTables m obf).1) ++
        (LpLine.sectionHeader "Binary" :: lpBinaryLines m (buildNameTables m obf).1) ++
        [LpLine.endLine]),
    ⟨ff && CanUseFixedMpsFormat (buildNameTables m obf).1 (buildNameTables m obf).2,
      mpsLines m (buildNameTables m obf).1 (buildNameTables m obf).2⟩,
    hcname, ?_, hts, ?_, ?_, ?_, ?_, ?_⟩
  · rw [ExportModelAsLpFormat, writeLp, hblocks]
  · refine List.mem_cons_of_mem _ (List.mem_cons_of_mem _ (List.mem_cons_of_mem _ ?_))
    exact List.mem_append_left _ (List.mem_append_left _ (List.mem_append_left _
      (List.mem_append_left _ hmem1)))
  · refine List.mem_cons_of_mem _ (List.mem_cons_of_mem _ (List.mem_cons_of_mem _ ?_))
    exact List.mem_append_left _ (List.mem_append_left _ (List.mem_append_left _
      (List.mem_append_left _ hmem2)))
  · rw [ExportModelAsMpsFormat, writeMps, if_neg (by simp [hvalid]),
      if_neg (by simp [hm])]
  · show (mpsLines m (buildNameTables m obf).1 (buildNameTables m obf).2).countP
      (isConstraintRowFor ((buildNameTables m obf).2[i])) = 1
    rw [count_isConstraintRow]
    exact rows_count m (buildNameTables m obf).2 hcl hnodup i _ ct hcname hct hN
  · show (mpsLines m (buildNameTables m obf).1 (buildNameTables m obf).2).countP
      (fun x => decide (x = MpsLine.rangeEntry ((buildNameTables m obf).2[i])
        (u - l))) = 1
    rw [count_isRangeEntry]
    exact ranges_count m (buildNameTables m obf).2 hcl hnodup i _ ct hcname hct
      (u - l) hwidth

/-- Model with one variable and one doubly-bounded range constraint
2 <= x <= 5. -/
def rangeModel : MPModelProto :=
  ⟨"m", false, 0,
    [⟨.fin 0, .posInf, 1, false, some "x"⟩],
    [⟨.fin 2, .fin 5, some "c", [(0, 1)]⟩]⟩

theorem range_expansion_witness :
    ∃ cname ts lines out,
      (buildNameTables rangeModel false).2[0]? = some cname ∧
      ExportModelAsLpFormat rangeModel false = .ok lines ∧
      constraintTermsE (buildNameTables rangeModel false).1
        (⟨.fin 2, .fin 5, some "c", [(0, 1)]⟩ : MPConstraintProto).coefficients =
        .ok ts ∧
      LpLine.constraintLine (cname ++ "_1") ts .geRel 2 ∈ lines ∧
      LpLine.constraintLine (cname ++ "_2") ts .leRel 5 ∈ lines ∧
      ExportModelAsMpsFormat rangeModel false false = .ok out ∧
      out.lines.countP (isConstraintRowFor cname) = 1 ∧
      out.lines.countP
        (fun x => decide (x = MpsLine.rangeEntry cname ((5 : Int) - 2))) = 1 :=
  range_expansion rangeModel false false 0 2 5
    ⟨.fin 2, .fin 5, some "c", [(0, 1)]⟩ (by decide) rfl rfl rfl rfl (by decide)

end ModelExporter
